import Mathlib

/-!
Verification development for the mesocircuit spike-analysis subsystem
(`mesocircuit/analysis/spike_analysis.py` and the legacy
`mesocircuit/core/analysis/spike_analysis.py`).

The Python functions are shallowly embedded: sparse matrices in COOrdinate
format become lists of `(row, col, value)` triplets together with an explicit
shape, numpy float arithmetic on spike counts and positions becomes exact `ℚ`
arithmetic, and fallible operations (assertions, scipy index checks, raised
exceptions) become `Except String`.
-/

namespace Mesocircuit

/-- One stored triplet of a scipy COO sparse matrix: `(row, col, value)`. -/
abbrev Entry := ℕ × ℕ × ℕ

/-- Shallow embedding of a scipy sparse matrix: stored triplets in storage
order plus the explicit shape. -/
structure SpMat where
  entries : List Entry
  nrows : ℕ
  ncols : ℕ
deriving DecidableEq, Repr

deriving instance DecidableEq for Except

/-- `np.digitize(x, bins, right=False)` for monotonically increasing `bins`:
the index `i` such that `bins[i-1] <= x < bins[i]`, i.e. the number of bin
edges that are `≤ x`. -/
def digitize (bins : List ℚ) (x : ℚ) : ℕ :=
  (bins.filter (fun e => decide (e ≤ x))).length

/-- `np.searchsorted(edges, x, side='right')` for sorted `edges`: the number
of edges `≤ x`. -/
def searchsorted_right (edges : List ℚ) (x : ℚ) : ℕ :=
  (edges.filter (fun e => decide (e ≤ x))).length

/-- Row-major enumeration of the cells of an `R × C` matrix, as produced by
flattening `np.mgrid[0:R, 0:C]`: flat index `ind` corresponds to row
`ind / C` and column `ind % C`. -/
def allCells (R C : ℕ) : List (ℕ × ℕ) :=
  (List.range (R * C)).map (fun ind => (ind / C, ind % C))

/-- Sum of the stored values of the triplets at coordinate `rc`
(scipy sums duplicate coordinates on `tocsr()`). -/
def sumAt (ts : List Entry) (rc : ℕ × ℕ) : ℕ :=
  ((ts.filter (fun e => decide (e.1 = rc.1 ∧ e.2.1 = rc.2))).map (fun e => e.2.2)).sum

/-- Whether some triplet is stored at coordinate `rc`. -/
def present (ts : List Entry) (rc : ℕ × ℕ) : Bool :=
  ts.any (fun e => decide (e.1 = rc.1 ∧ e.2.1 = rc.2))

/-- `coo.tocsr().tocoo()`: canonicalize the stored triplets of an `R × C`
COO matrix — duplicate coordinates are summed and the stored entries are
reordered row-major (row, then column). Coordinates keep one stored entry
per occupied cell. -/
def canonicalize (R C : ℕ) (ts : List Entry) : List Entry :=
  ((allCells R C).filter (fun rc => present ts rc)).map
    (fun rc => (rc.1, rc.2, sumAt ts rc))

/-- Boolean form of the source assertion
`np.all(np.diff(sptrains_bintime.row) >= 0)`: every consecutive pair of
stored row indices is non-decreasing. -/
def rows_nondecreasing (ts : List Entry) : Bool :=
  let rows := ts.map (fun e => e.1)
  (rows.zip rows.tail).all (fun ab => decide (ab.1 ≤ ab.2))

lemma all_zip_tail_iff_chain (l : List ℕ) :
    ((l.zip l.tail).all (fun ab => decide (ab.1 ≤ ab.2)) = true) ↔
      List.Chain' (· ≤ ·) l := by
  induction l with
  | nil => simp
  | cons a t ih =>
    cases t with
    | nil => simp
    | cons b t2 =>
      rw [List.chain'_cons]
      constructor
      · intro h
        have h2 := List.all_eq_true.mp h
        refine ⟨by simpa using h2 (a, b) (by simp), ?_⟩
        apply ih.mp
        apply List.all_eq_true.mpr
        intro ab hab
        exact h2 ab (by simp [List.zip_cons_cons]; right; simpa using hab)
      · intro ⟨hab, hchain⟩
        apply List.all_eq_true.mpr
        intro ab hab2
        rw [List.tail_cons, List.zip_cons_cons] at hab2
        rcases List.mem_cons.mp hab2 with h1 | h1
        · rw [h1]
          simpa using hab
        · exact List.all_eq_true.mp (ih.mpr hchain) ab h1

lemma rows_nondecreasing_iff_chain (ts : List Entry) :
    rows_nondecreasing ts = true ↔ List.Chain' (· ≤ ·) (ts.map (fun e => e.1)) :=
  all_zip_tail_iff_chain _

/-- Total stored value sum of a triplet list (`matrix.sum()`). -/
def sumVals (ts : List Entry) : ℕ :=
  (ts.map (fun e => e.2.2)).sum

/-- The triplet-construction phase of `_time_binned_sptrains_X`: an empty
spike set contributes no triplets; otherwise each spike `(nodeid, time_ms)`
becomes a `1`-valued triplet in the time bin found by `np.digitize` against
the shifted edges `np.r_[time_bins[1:], [time_bins[-1] + dt]]`.  Out-of-range
coordinates make the scipy COO constructor raise, embedded as
`Except.error`. -/
def binned_triplets (N_X : ℕ) (spikes : List (ℕ × ℚ)) (time_bins : List ℚ) :
    Except String (List Entry) :=
  match spikes with
  | [] => Except.ok []
  | _ =>
    let dt := time_bins.getD 1 0 - time_bins.getD 0 0
    let time_bins_digi := time_bins.drop 1 ++ [time_bins.getD (time_bins.length - 1) 0 + dt]
    let ts := spikes.map (fun s => ((s.1, digitize time_bins_digi s.2, 1) : Entry))
    if ts.all (fun e => decide (e.1 < N_X ∧ e.2.1 < time_bins.length)) then Except.ok ts
    else Except.error "ValueError: coordinates out of matrix shape"

/-- `_time_binned_sptrains_X(N_X, spikes, time_bins, dtype)`: build the COO
matrix of `binned_triplets` with shape `(N_X, time_bins.size)`, canonicalize
it with `.tocsr().tocoo()` and assert the row-monotonic invariant.  An empty
spike set yields the explicitly shaped empty matrix. -/
def time_binned_sptrains_X (N_X : ℕ) (spikes : List (ℕ × ℚ)) (time_bins : List ℚ) :
    Except String SpMat :=
  match binned_triplets N_X spikes time_bins with
  | Except.error e => Except.error e
  | Except.ok triplets =>
    let canon := canonicalize N_X time_bins.length triplets
    if rows_nondecreasing canon then
      Except.ok ⟨canon, N_X, time_bins.length⟩
    else
      Except.error "AssertionError: row indices must be increasing"

/-- numpy slice assignment `arr[j:j+n] = v`: indices past the end of the
array are silently ignored. -/
def setSlice (arr : List ℕ) (j n v : ℕ) : List ℕ :=
  arr.mapIdx (fun k a => if j ≤ k ∧ k < j + n then v else a)

/-- The cell lookup
`[ind] = np.where((map_x == pos_x[i]) & (map_y == pos_y[i]))[0]`
performed by `_time_and_space_binned_sptrains_X` on the flattened
`np.mgrid[0:G, 0:G]` arrays (`map_x ind = ind % G`, `map_y ind = ind / G`). -/
def cell_lookup (G px py : ℕ) : List ℕ :=
  (List.range (G * G)).filter (fun ind => decide (ind % G = px ∧ ind / G = py))

/-- Row sum `sptrains_bintime.sum(axis=1)` restricted to row `i`. -/
def rowSum (ts : List Entry) (i : ℕ) : ℕ :=
  ((ts.filter (fun e => decide (e.1 = i))).map (fun e => e.2.2)).sum

/-- The row-reassignment loop of `_time_and_space_binned_sptrains_X`: iterate
over the per-neuron spike sums `(i, n)`; for spiking neurons locate the unique
flat cell via `cell_lookup` and write it into `row[j:j+n]`; `j += n` happens
for every neuron.  A failed unpacking of the lookup raises
`NotImplementedError` (the fatal data-consistency error), a missing position
raises `IndexError`. -/
def assign_rows (G : ℕ) (pos_x pos_y : List ℕ) :
    List (ℕ × ℕ) → ℕ → List ℕ → Except String (List ℕ)
  | [], _, rowArr => Except.ok rowArr
  | (i, n) :: rest, j, rowArr =>
    if 0 < n then
      match pos_x.get? i, pos_y.get? i with
      | some px, some py =>
        match cell_lookup G px py with
        | [ind] => assign_rows G pos_x pos_y rest (j + n) (setSlice rowArr j n ind)
        | _ => Except.error "NotImplementedError: Neurons must be on spatial analysis grid."
      | _, _ => Except.error "IndexError: position index out of range"
    else
      assign_rows G pos_x pos_y rest (j + n) rowArr

/-- The reconstruction phase of `_time_and_space_binned_sptrains_X`: pair the
re-assigned row array with the original stored entries (data and columns are
carried unchanged), rebuild a `(G*G, ncols)` matrix with `tocsr()` (failing
like scipy on out-of-range coordinates), and assert exact spike-count
conservation against the pre-projection entries. -/
def project_entries (G ncols : ℕ) (entriesIn : List Entry) (rowNew : List ℕ) :
    Except String SpMat :=
  let newTriplets := (rowNew.zip entriesIn).map
    (fun re => ((re.1, re.2.2.1, re.2.2.2) : Entry))
  if newTriplets.all (fun e => decide (e.1 < G * G ∧ e.2.1 < ncols)) then
    let out := canonicalize (G * G) ncols newTriplets
    if sumVals entriesIn = sumVals out then
      Except.ok ⟨out, G * G, ncols⟩
    else
      Except.error "AssertionError: sptrains_bintime.sum() != sptrains_csr.sum()"
  else
    Except.error "ValueError: coordinates out of matrix shape"

/-- `_time_and_space_binned_sptrains_X(positions, sptrains_bintime, space_bins,
dtype)`: digitize each neuron position against `space_bins[1:]`, re-assign
every stored entry of the (row-sorted) time-binned COO matrix from its neuron
row to the neuron's flat cell row via `assign_rows`, then rebuild and check
via `project_entries`. -/
def time_and_space_binned_sptrains_X (positions : List (ℚ × ℚ)) (sptrains_bintime : SpMat)
    (space_bins : List ℚ) : Except String SpMat :=
  let pos_x := positions.map (fun p => digitize (space_bins.drop 1) p.1)
  let pos_y := positions.map (fun p => digitize (space_bins.drop 1) p.2)
  let G := space_bins.length - 1
  if ¬ rows_nondecreasing sptrains_bintime.entries then
    Except.error "AssertionError: sptrains_bintime.row must be in increasing order"
  else
    let nspikes := (List.range sptrains_bintime.nrows).map
      (fun i => (i, rowSum sptrains_bintime.entries i))
    let rowInit := List.replicate sptrains_bintime.entries.length 0
    match assign_rows G pos_x pos_y nspikes 0 rowInit with
    | Except.error e => Except.error e
    | Except.ok rowNew => project_entries G sptrains_bintime.ncols sptrains_bintime.entries rowNew

/-- One-dimensional cell assignment of `np.histogram` with an explicit sorted
edge array: all bins are half-open `[e_k, e_{k+1})` except the last, which is
closed; points outside `[first, last]` are dropped.  numpy computes the index
as `searchsorted(edges, x, side='right') - 1` with the right-boundary special
case. -/
def hist_bin_index (edges : List ℚ) (x : ℚ) : Option ℕ :=
  let first := edges.getD 0 0
  let last := edges.getD (edges.length - 1) 0
  if first ≤ x ∧ x ≤ last then
    if x = last then some (edges.length - 2)
    else some (searchsorted_right edges x - 1)
  else none

/-- `_neuron_count_per_spatial_bin_X(positions, space_bins)`:
`np.histogram2d(y, x, bins=[space_bins, space_bins])` — the 2D neuron-count
histogram, rows indexed by the y cell and columns by the x cell. -/
def neuron_count_per_spatial_bin_X (positions : List (ℚ × ℚ)) (space_bins : List ℚ) :
    List (List ℕ) :=
  let G := space_bins.length - 1
  (List.range G).map (fun yi =>
    (List.range G).map (fun xi =>
      (positions.filter (fun p =>
        decide (hist_bin_index space_bins p.2 = some yi ∧
                hist_bin_index space_bins p.1 = some xi))).length))

/-- The flat cell index that the spatial projection assigns to a position:
`some (pos_y * G + pos_x)` exactly when `cell_lookup` succeeds. -/
def proj_cell_index (space_bins : List ℚ) (p : ℚ × ℚ) : Option ℕ :=
  let G := space_bins.length - 1
  match cell_lookup G (digitize (space_bins.drop 1) p.1) (digitize (space_bins.drop 1) p.2) with
  | [ind] => some ind
  | _ => none

/-- The flat cell index whose count a position increments in the neuron-count
histogram (row-major flattening of the 2D histogram, `yi * G + xi`). -/
def hist_cell_index (space_bins : List ℚ) (p : ℚ × ℚ) : Option ℕ :=
  let G := space_bins.length - 1
  match hist_bin_index space_bins p.2, hist_bin_index space_bins p.1 with
  | some yi, some xi => some (yi * G + xi)
  | _, _ => none

/-- `_instantaneous_time_and_space_binned_rates_X(sptrains_bintime_binspace,
binsize_time, neuron_count_binspace)`: divide all counts by
`binsize_time * 1E-3`, then divide the rows at `np.where(pos_hist > 0)` by
their neuron count; other rows are left untouched.  The matrix is dense here
(`List (List ℚ)` of rows), `pos_hist` is the flattened histogram. -/
def inst_rates_X (spmat : List (List ℚ)) (binsize_time : ℚ) (pos_hist : List ℕ) :
    List (List ℚ) :=
  let inst := spmat.map (fun row => row.map (fun v => v / (binsize_time * (1 / 1000))))
  inst.mapIdx (fun i row =>
    if 0 < pos_hist.getD i 0 then row.map (fun v => v / (pos_hist.getD i 0 : ℚ)) else row)

/-- `_compute_rates(sptrains_X, duration)`: per-neuron spike count scaled by
`1.E3 / duration`, rows given densely. -/
def compute_rates (sptrains : List (List ℕ)) (duration : ℚ) : List ℚ :=
  sptrains.map (fun row => (row.sum : ℚ) * 1000 / duration)

/-- `np.where(sptrain.toarray())[1]`: the (ascending) column indices of the
nonzero entries of one dense spike-train row. -/
def nonzero_cols (row : List ℕ) : List ℕ :=
  (row.enum.filter (fun iv => decide (iv.2 ≠ 0))).map (fun iv => iv.1)

/-- `np.diff`: successive differences. -/
def diffs (l : List ℕ) : List ℤ :=
  (l.zip l.tail).map (fun ab => (ab.2 : ℤ) - (ab.1 : ℤ))

/-- The per-neuron body of `_compute_lvs`: the inter-spike intervals are the
diffs of the nonzero time-bin indices; fewer than 2 ISIs give `np.nan`
(embedded as `none`); otherwise
`3 * mean((np.diff(isi) / (isi[:-1] + isi[1:]))**2)`. -/
def lv_of_train (row : List ℕ) : Option ℚ :=
  let isi := diffs (nonzero_cols row)
  if isi.length < 2 then none
  else
    let terms := (isi.zip isi.tail).map
      (fun ab => (((ab.2 : ℚ) - (ab.1 : ℚ)) / ((ab.1 : ℚ) + (ab.2 : ℚ))) ^ 2)
    some (3 * (terms.sum / (terms.length : ℚ)))

/-- `_compute_lvs(sptrains_X)`: the LV of every row. -/
def compute_lvs (sptrains : List (List ℕ)) : List (Option ℚ) :=
  sptrains.map lv_of_train

/-- Fuel-based helper for `chunkSums` (structural recursion on the fuel so
that the kernel can evaluate it; the fuel is instantiated with the list
length, which suffices for chunk size `≥ 1`). -/
def chunkSumsF : ℕ → ℕ → List ℕ → List ℕ
  | 0, _, _ => []
  | fuel + 1, n, l =>
    if n = 0 ∨ l = [] then []
    else (l.take n).sum :: chunkSumsF fuel n (l.drop n)

/-- Sums of consecutive chunks of size `n` (the semantics of
`.reshape(..., n).sum(axis=-1)` on a flat array whose length `n` divides). -/
def chunkSums (n : ℕ) (l : List ℕ) : List ℕ :=
  chunkSumsF l.length n l

lemma chunkSumsF_nil (fuel n : ℕ) : chunkSumsF fuel n [] = [] := by
  cases fuel with
  | zero => rfl
  | succ f => simp [chunkSumsF]

lemma chunkSumsF_congr (n : ℕ) (hn : n ≠ 0) :
    ∀ (f1 : ℕ) (l : List ℕ) (f2 : ℕ), l.length ≤ f1 → l.length ≤ f2 →
    chunkSumsF f1 n l = chunkSumsF f2 n l := by
  intro f1
  induction f1 with
  | zero =>
    intro l f2 h1 _
    have hl : l = [] := List.eq_nil_of_length_eq_zero (by omega)
    subst hl
    rw [chunkSumsF_nil, chunkSumsF_nil]
  | succ f1 ih =>
    intro l f2 h1 h2
    by_cases hl : l = []
    · subst hl
      rw [chunkSumsF_nil, chunkSumsF_nil]
    · have hpos : 0 < l.length := List.length_pos.mpr hl
      cases f2 with
      | zero => omega
      | succ f2 =>
        simp only [chunkSumsF]
        rw [if_neg (not_or.mpr ⟨hn, hl⟩), if_neg (not_or.mpr ⟨hn, hl⟩)]
        exact congrArg _ (ih (l.drop n) f2 (by rw [List.length_drop]; omega)
          (by rw [List.length_drop]; omega))

/-- One-step unfolding of `chunkSums` for a nonempty list and positive chunk
size. -/
lemma chunkSums_eq (n : ℕ) (hn : n ≠ 0) (l : List ℕ) (hl : l ≠ []) :
    chunkSums n l = (l.take n).sum :: chunkSums n (l.drop n) := by
  have hpos : 0 < l.length := List.length_pos.mpr hl
  have hnpos : 0 < n := Nat.pos_of_ne_zero hn
  unfold chunkSums
  have hlen : l.length = (l.length - 1) + 1 := by omega
  rw [hlen]
  simp only [chunkSumsF]
  rw [if_neg (not_or.mpr ⟨hn, hl⟩)]
  exact congrArg _ (chunkSumsF_congr n hn (l.length - 1) (l.drop n) (l.drop n).length
    (by rw [List.length_drop]; omega) le_rfl)

/-- `flat.reshape(nrows, -1, ntbin).sum(axis=-1)` on the row-major flattening
of a 2D array: numpy infers the middle dimension, requiring
`nrows * ntbin` to divide the total size, then sums over the last axis. -/
def reshape_bin (nrows ntbin : ℕ) (flat : List ℕ) : Except String (List (List ℕ)) :=
  if nrows ≠ 0 ∧ ntbin ≠ 0 ∧ (nrows * ntbin) ∣ flat.length then
    let summed := chunkSums ntbin flat
    let w := summed.length / nrows
    Except.ok ((List.range nrows).map (fun i => (summed.drop (i * w)).take w))
  else Except.error "ValueError: cannot reshape array"

/-- `ccs[np.triu(np.ones(ccs.shape), k=1).astype(bool)]`: the strict upper
triangle of a matrix, flattened row-major. -/
def upper_triangle (M : List (List ℚ)) : List ℚ :=
  (M.mapIdx (fun i row => row.drop (i + 1))).flatten

/-- `_pdist_pbc` (and `scipy.spatial.distance.pdist`): for each `i` the
distances from point `i` to every later point, concatenated.  The pointwise
metric (`hybridLFPy.helperfun._calc_radial_dist_to_cell`, resp. the Euclidean
metric) is external library code and is passed in as `dist`. -/
def pdist_gen (dist : ℚ × ℚ → ℚ × ℚ → ℚ) : List (ℚ × ℚ) → List ℚ
  | [] => []
  | p :: rest => rest.map (dist p) ++ pdist_gen dist rest

/-- The selection-size computation of `_compute_ccs_distances`:
`num_neurons = min_num_neurons` if `ccs_num_neurons` is `'auto'` (`none`) or
exceeds `min_num_neurons`, else the configured count. -/
def select_num_neurons (ccs_num_neurons : Option ℕ) (min_num_neurons : ℕ) : ℕ :=
  match ccs_num_neurons with
  | none => min_num_neurons
  | some c => if c > min_num_neurons then min_num_neurons else c

/-- The result pair of the correlation-distance statistic. -/
structure CCResult where
  ccs : List ℚ
  distances : List ℚ
deriving DecidableEq, Repr

/-- Whether a neuron counts as spiking in `_compute_ccs_distances`: its
dense spike train with the very last time bin discarded has a positive sum. -/
def spiking (sptrains : List (List ℕ)) (nid : ℕ) : Bool :=
  decide (0 < ((sptrains.getD nid []).dropLast).sum)

/-- The per-neuron streaming loop of `_compute_ccs_distances` (current
variant): scan node ids in order; for each spiking neuron bin its train with
`reshape(1, -1, ntbin).sum(axis=-1)` and write it into the preallocated
`spt` at index `i_spt`, mark it in `mask_nrns`, and break once
`i_spt == num_neurons`.  An out-of-bounds write is `IndexError`. -/
def stream_loop (num_neurons ntbin : ℕ) (sptrains : List (List ℕ)) :
    List ℕ → ℕ → List (List ℕ) → List Bool →
    Except String (ℕ × List (List ℕ) × List Bool)
  | [], i_spt, spt, mask => Except.ok (i_spt, spt, mask)
  | nid :: rest, i_spt, spt, mask =>
    let spt_nid := (sptrains.getD nid []).dropLast
    if 0 < spt_nid.sum then
      match reshape_bin 1 ntbin spt_nid with
      | Except.error e => Except.error e
      | Except.ok binnedRows =>
        if i_spt < spt.length then
          let sptNew := spt.set i_spt (binnedRows.flatten)
          let maskNew := mask.set nid true
          if i_spt + 1 = num_neurons then Except.ok (i_spt + 1, sptNew, maskNew)
          else stream_loop num_neurons ntbin sptrains rest (i_spt + 1) sptNew maskNew
        else Except.error "IndexError: spt index out of range"
    else
      if i_spt = num_neurons then Except.ok (i_spt, spt, mask)
      else stream_loop num_neurons ntbin sptrains rest i_spt spt mask

/-- `_compute_ccs_distances(X, circuit, sptrains_X, binsize_time,
positions_X)` — the current, row-streaming variant
(`mesocircuit/analysis/spike_analysis.py`).  `corrcoef` stands for
`np.corrcoef` and `dist` for the periodic-boundary point metric of
`hybridLFPy.helperfun`, both external library code; `mem` gives the
unspecified contents of `np.empty`. -/
def compute_ccs_distances_stream
    (corrcoef : List (List ℕ) → List (List ℚ)) (dist : ℚ × ℚ → ℚ × ℚ → ℚ)
    (mem : ℕ → ℕ → ℕ) (ccs_num_neurons : Option ℕ) (min_num_neurons : ℕ)
    (ccs_time_interval binsize_time : ℚ)
    (sptrains : List (List ℕ)) (positions : List (ℚ × ℚ)) :
    Except String CCResult :=
  let num_neurons := select_num_neurons ccs_num_neurons min_num_neurons
  let num_neurons_data := sptrains.length
  let num_timesteps := (sptrains.headD []).length - 1
  let ntbin := (ccs_time_interval / binsize_time).floor.toNat
  -- np.empty((num_neurons, int(num_timesteps/ntbin)), dtype=int)
  let spt0 := (List.range num_neurons).map
    (fun i => (List.range (num_timesteps / ntbin)).map (mem i))
  let mask0 := List.replicate num_neurons_data false
  match stream_loop num_neurons ntbin sptrains (List.range num_neurons_data) 0 spt0 mask0 with
  | Except.error e => Except.error e
  | Except.ok (_, spt, mask) =>
    let xy_pos := ((positions.zip mask).filter (fun pm => pm.2)).map (fun pm => pm.1)
    let ccs := upper_triangle (corrcoef spt)
    let distances := pdist_gen dist xy_pos
    Except.ok ⟨ccs, distances⟩

/-- `SpikeAnalysis.__compute_ccs_distances` — the legacy dense-matrix variant
(`mesocircuit/core/analysis/spike_analysis.py`): load the whole dense matrix,
drop the last time bin, mask out non-spiking rows, keep the first
`num_neurons` spiking rows and their positions, bin with
`reshape(num_neurons_spk, -1, ntbin).sum(axis=-1)`, correlate, and pair with
plain Euclidean distances (`dist`). -/
def compute_ccs_distances_dense
    (corrcoef : List (List ℕ) → List (List ℚ)) (dist : ℚ × ℚ → ℚ × ℚ → ℚ)
    (ccs_num_neurons : Option ℕ) (min_num_neurons : ℕ)
    (ccs_time_interval binsize_time : ℚ)
    (sptrains : List (List ℕ)) (positions : List (ℚ × ℚ)) :
    Except String CCResult :=
  let num_neurons := select_num_neurons ccs_num_neurons min_num_neurons
  let spt := sptrains.map List.dropLast
  let mask := spt.map (fun r => decide (0 < r.sum))
  let spt_sel := (((spt.zip mask).filter (fun rm => rm.2)).map (fun rm => rm.1)).take num_neurons
  let xy_pos := (((positions.zip mask).filter (fun pm => pm.2)).map (fun pm => pm.1)).take num_neurons
  let num_neurons_spk := spt_sel.length
  let ntbin := (ccs_time_interval / binsize_time).floor.toNat
  match reshape_bin num_neurons_spk ntbin spt_sel.flatten with
  | Except.error e => Except.error e
  | Except.ok binned =>
    let ccs := upper_triangle (corrcoef binned)
    let distances := pdist_gen dist xy_pos
    Except.ok ⟨ccs, distances⟩

/-- The assertion guarding 1 mm² disc extraction in `preprocess_data`:
`assert circuit.net_dict['extent'] > 1. / np.sqrt(np.pi)`. -/
def extract_1mm2_check (extent : ℝ) : Prop :=
  extent > 1 / Real.sqrt Real.pi

/-- Modelled from the spec: the precondition `E > 2·sqrt(A/π)` with
`A = 1 mm²` that §4.2 requires before disc extraction — the disc of area 1
cannot fit inside the simulated square otherwise.  (The spec formula; the
source only checks `extent > 1/sqrt(pi)`.) -/
def disc_fits_precondition (extent : ℝ) : Prop :=
  extent > 2 * Real.sqrt (1 / Real.pi)

/-- The statistic datatypes dispatched by `_compute_statistics_X`. -/
inductive Datatype where
  | FRs
  | LVs
  | CCs_distances
  | PSDs
  | CCfuncs_thalamic_pulses
deriving DecidableEq, Repr

/-- A computed statistic dataset; `empty` is the explicit empty result
`np.array([])`, `external` stands for the datasets whose computation is
external library code (Welch PSD, thalamic cross-correlation files). -/
inductive Dataset where
  | empty
  | FRs (v : List ℚ)
  | LVs (v : List (Option ℚ))
  | CCs (r : CCResult)
  | external
deriving DecidableEq, Repr

/-- The per-datatype dispatch of `_compute_statistics_X` (the `else` branch
taken when spikes exist). -/
def dispatch_statistic (corrcoef : List (List ℕ) → List (List ℚ))
    (dist : ℚ × ℚ → ℚ × ℚ → ℚ) (mem : ℕ → ℕ → ℕ)
    (ccs_num_neurons : Option ℕ) (min_num_neurons : ℕ)
    (ccs_time_interval sim_resolution time_statistics : ℚ)
    (sptrains_dense : List (List ℕ)) (positions : List (ℚ × ℚ)) :
    Datatype → Except String Dataset
  | Datatype.FRs => Except.ok (Dataset.FRs (compute_rates sptrains_dense time_statistics))
  | Datatype.LVs => Except.ok (Dataset.LVs (compute_lvs sptrains_dense))
  | Datatype.CCs_distances =>
      match compute_ccs_distances_stream corrcoef dist mem ccs_num_neurons
        min_num_neurons ccs_time_interval sim_resolution sptrains_dense positions with
      | Except.error e => Except.error e
      | Except.ok r => Except.ok (Dataset.CCs r)
  | Datatype.PSDs => Except.ok Dataset.external
  | Datatype.CCfuncs_thalamic_pulses => Except.ok Dataset.external

/-- The statistics loop of `_compute_statistics_X`: for every configured
datatype, `if d['sptrains_X'].size == 0: dataset = np.array([])` —
zero stored entries in the fine spike-train matrix short-circuit every
statistic to the explicit empty dataset; otherwise dispatch. -/
def compute_statistics_X (sptrains : SpMat)
    (corrcoef : List (List ℕ) → List (List ℚ)) (dist : ℚ × ℚ → ℚ × ℚ → ℚ)
    (mem : ℕ → ℕ → ℕ) (ccs_num_neurons : Option ℕ) (min_num_neurons : ℕ)
    (ccs_time_interval sim_resolution time_statistics : ℚ)
    (sptrains_dense : List (List ℕ)) (positions : List (ℚ × ℚ))
    (datatypes : List Datatype) : List (Except String Dataset) :=
  datatypes.map (fun dt =>
    if sptrains.entries.length = 0 then Except.ok Dataset.empty
    else dispatch_statistic corrcoef dist mem ccs_num_neurons min_num_neurons
      ccs_time_interval sim_resolution time_statistics sptrains_dense positions dt)

/-! ## Theorems -/

/-- **C3** (code bug): with disc extraction enabled and target area `A = 1 mm²`,
the spec requires any extent `E` with `¬ (E > 2·sqrt(A/π))` to be rejected by a
fatal configuration error; the source assertion only checks
`extent > 1/sqrt(pi)`.  At extent `E = 1` the source check passes — extraction
proceeds — although `1 ≤ 2·sqrt(1/π) ≈ 1.128`, i.e. the requested disc of
diameter `2/sqrt(π)` does not fit inside the 1×1 extent, so the claim requires
a fatal error that the code never raises. -/
theorem extract_1mm2_check_accepts_unfit_extent :
    extract_1mm2_check 1 ∧ ¬ disc_fits_precondition 1 := by
  have hpos : (0 : ℝ) < Real.sqrt Real.pi := Real.sqrt_pos.mpr Real.pi_pos
  have hsq : Real.sqrt Real.pi ^ 2 = Real.pi := Real.sq_sqrt Real.pi_pos.le
  constructor
  · show (1 : ℝ) > 1 / Real.sqrt Real.pi
    rw [gt_iff_lt, div_lt_one hpos]
    nlinarith [Real.pi_gt_three, Real.sqrt_nonneg Real.pi]
  · intro hcontra
    rw [disc_fits_precondition, gt_iff_lt, one_div, Real.sqrt_inv] at hcontra
    have hle : Real.sqrt Real.pi ≤ 2 := by
      nlinarith [Real.pi_lt_d2, Real.sqrt_nonneg Real.pi]
    have h1 : (1 : ℝ) ≤ 2 * (Real.sqrt Real.pi)⁻¹ := by
      rw [← div_eq_mul_inv, le_div_iff₀ hpos]
      linarith
    linarith

/-- **C5** (counterexample): the claim states that the rate conversion
returns an identically zero row for every cell containing zero neurons.  For
the input matrix `[[1]]` (one spike in the single cell), bin size 1 ms and
neuron-count histogram `[0]`, the returned row is `[1000]` (the raw count
scaled by `1/(1·1e-3)`), not `[0]`: rows with zero neuron count are left
unnormalized, not zeroed. -/
theorem inst_rates_zero_count_row_not_zero :
    inst_rates_X [[1]] 1 [0] = [[1000]] ∧ ([[(1000 : ℚ)]] ≠ [[0]]) := by
  constructor
  · show ([[1]].map (fun row => row.map (fun v => v / ((1 : ℚ) * (1 / 1000))))).mapIdx
      (fun i row =>
        if 0 < [0].getD i 0 then row.map (fun v => v / (([0].getD i 0 : ℕ) : ℚ)) else row) =
      [[1000]]
    norm_num
  · intro hcontra
    have : (1000 : ℚ) = 0 := by
      have h1 := congrArg (fun l => (l.getD 0 []).getD 0 0) hcontra
      simpa using h1
    norm_num at this

/-- **C5** (amended): the rate conversion equals, row by row, the input
divided by `binsize_time × 1e-3` and then — only when the cell's neuron
count `n` is positive — by `n`; a row whose cell has zero neurons is
returned merely scaled by `1/(binsize_time × 1e-3)` (hence zero exactly when
the raw row is zero). -/
lemma mapIdx_map_comp {α β γ : Type} (f : α → β) (g : ℕ → β → γ) (l : List α) :
    (l.map f).mapIdx g = l.mapIdx (fun i a => g i (f a)) := by
  induction l generalizing g with
  | nil => rfl
  | cons a t ih => simp only [List.map_cons, List.mapIdx_cons, ih]

theorem inst_rates_X_row_spec (spmat : List (List ℚ)) (b : ℚ) (hist : List ℕ) :
    inst_rates_X spmat b hist =
      spmat.mapIdx (fun i row =>
        if 0 < hist.getD i 0 then
          row.map (fun v => v / (b * (1 / 1000)) / (hist.getD i 0 : ℚ))
        else
          row.map (fun v => v / (b * (1 / 1000)))) := by
  simp only [inst_rates_X]
  rw [mapIdx_map_comp]
  apply congrArg (fun F => List.mapIdx F spmat)
  funext i a
  split
  · rw [List.map_map]
    rfl
  · rfl

/-- The LV formula exactly as the claim states it: the mean over consecutive
ISI pairs of `3·(isi_i − isi_{i+1})² / (isi_i + isi_{i+1})²`. -/
def lv_spec_formula (isi : List ℤ) : ℚ :=
  ((isi.zip isi.tail).map
    (fun ab => 3 * ((ab.1 : ℚ) - (ab.2 : ℚ)) ^ 2 / ((ab.1 : ℚ) + (ab.2 : ℚ)) ^ 2)).sum /
    (((isi.zip isi.tail).length : ℚ))

lemma chain_eq_pairs {l : List ℤ} (h : List.Chain' (· = ·) l) :
    ∀ ab ∈ l.zip l.tail, ab.1 = ab.2 := by
  induction l with
  | nil => intro ab hab; simp at hab
  | cons a t ih =>
    cases t with
    | nil => intro ab hab; simp at hab
    | cons b t2 =>
      intro ab hab
      rw [List.chain'_cons] at h
      rcases List.mem_cons.mp hab with h1 | h1
      · rw [h1]; exact h.1
      · exact ih h.2 ab h1

/-- **C6**: for every fine-resolution spike-train row, (a) fewer than 2
inter-spike intervals yield the missing-value sentinel (`none`, embedding
`np.nan`) — in particular never the value `0`; (b) otherwise the result is
exactly the claim formula `mean_i [3·(isi_i − isi_{i+1})²/(isi_i+isi_{i+1})²]`;
(c) a train whose ISIs are all equal (perfectly periodic) with at least 2
ISIs yields exactly `some 0`. -/
lemma lv_term_eq (a b : ℚ) :
    3 * (a - b) ^ 2 / (a + b) ^ 2 = 3 * (((b - a) / (a + b)) ^ 2) := by
  rw [div_pow, show (b - a) ^ 2 = (a - b) ^ 2 from by ring, mul_div_assoc]

theorem compute_lvs_spec (row : List ℕ) :
    ((diffs (nonzero_cols row)).length < 2 → lv_of_train row = none) ∧
    (2 ≤ (diffs (nonzero_cols row)).length →
      lv_of_train row = some (lv_spec_formula (diffs (nonzero_cols row)))) ∧
    (2 ≤ (diffs (nonzero_cols row)).length →
      List.Chain' (· = ·) (diffs (nonzero_cols row)) → lv_of_train row = some 0) := by
  refine ⟨fun h1 => ?_, fun h2 => ?_, fun h2 hc => ?_⟩
  · simp only [lv_of_train]
    rw [if_pos h1]
  · simp only [lv_of_train]
    rw [if_neg (by omega)]
    congr 1
    simp only [lv_spec_formula]
    have hmap : ((diffs (nonzero_cols row)).zip (diffs (nonzero_cols row)).tail).map
        (fun ab => 3 * ((ab.1 : ℚ) - (ab.2 : ℚ)) ^ 2 / ((ab.1 : ℚ) + (ab.2 : ℚ)) ^ 2)
        = ((diffs (nonzero_cols row)).zip (diffs (nonzero_cols row)).tail).map
          (fun ab => 3 * ((((ab.2 : ℚ) - (ab.1 : ℚ)) / ((ab.1 : ℚ) + (ab.2 : ℚ))) ^ 2)) := by
      apply List.map_congr_left
      intro ab _
      exact lv_term_eq _ _
    rw [hmap, List.sum_map_mul_left, List.length_map, mul_div_assoc]
  · simp only [lv_of_train]
    rw [if_neg (by omega)]
    have hz : ((diffs (nonzero_cols row)).zip (diffs (nonzero_cols row)).tail).map
        (fun ab => (((ab.2 : ℚ) - (ab.1 : ℚ)) / ((ab.1 : ℚ) + (ab.2 : ℚ))) ^ 2) =
        ((diffs (nonzero_cols row)).zip (diffs (nonzero_cols row)).tail).map (fun _ => (0 : ℚ)) := by
      apply List.map_congr_left
      intro ab hab
      have heq := chain_eq_pairs hc ab hab
      rw [heq]
      simp
    rw [hz]
    simp

/-- Witness for **C6**: the train `[1,1,0]` has a single ISI, so its LV is the
sentinel; the perfectly periodic train `[1,0,1,0,1]` has constant ISIs `[2,2]`
and its LV equals both the claim formula and exactly `0`. -/
theorem compute_lvs_spec_witness :
    lv_of_train [1, 1, 0] = none ∧
    lv_of_train [1, 0, 1, 0, 1] = some (lv_spec_formula (diffs (nonzero_cols [1, 0, 1, 0, 1]))) ∧
    lv_of_train [1, 0, 1, 0, 1] = some 0 :=
  ⟨(compute_lvs_spec [1, 1, 0]).1 (by decide),
   (compute_lvs_spec [1, 0, 1, 0, 1]).2.1 (by decide),
   (compute_lvs_spec [1, 0, 1, 0, 1]).2.2 (by decide) (by
      rw [show diffs (nonzero_cols [1, 0, 1, 0, 1]) = [2, 2] from by decide]
      simp [List.chain'_cons])⟩

lemma filter_range_eq_single (n k : ℕ) (hk : k < n) (p : ℕ → Bool)
    (hp : ∀ i, i < n → (p i = true ↔ i = k)) : (List.range n).filter p = [k] := by
  induction n with
  | zero => omega
  | succ m ih =>
    rw [List.range_succ, List.filter_append]
    by_cases hkm : k = m
    · have h1 : (List.range m).filter p = [] := by
        apply List.filter_eq_nil_iff.mpr
        intro a ha
        have halt := List.mem_range.mp ha
        intro hpa
        have := (hp a (by omega)).mp hpa
        omega
      have h2 : [m].filter p = [m] := by
        have : p m = true := (hp m (by omega)).mpr hkm.symm
        simp [List.filter_cons, this]
      rw [h1, h2, hkm]
      rfl
    · have hklt : k < m := by omega
      have h1 : (List.range m).filter p = [k] :=
        ih hklt (fun i hi => hp i (by omega))
      have h2 : [m].filter p = [] := by
        have hpm : p m = false := by
          rcases Bool.eq_false_or_eq_true (p m) with hb | hb
          · exact absurd ((hp m (by omega)).mp hb) (by omega)
          · exact hb
        simp [List.filter_cons, hpm]
      rw [h1, h2]
      rfl

lemma cell_lookup_of_lt (G px py : ℕ) (hx : px < G) (hy : py < G) :
    cell_lookup G px py = [py * G + px] := by
  have hmem : py * G + px < G * G := by
    calc py * G + px < py * G + G := by omega
      _ = (py + 1) * G := by ring
      _ ≤ G * G := Nat.mul_le_mul_right G (by omega)
  apply filter_range_eq_single _ _ hmem
  intro i hi
  constructor
  · intro hp
    have hp2 : i % G = px ∧ i / G = py := by simpa using hp
    have hdm := Nat.div_add_mod i G
    rw [hp2.1, hp2.2] at hdm
    rw [← hdm, Nat.mul_comm]
  · intro hik
    subst hik
    have hG : 0 < G := by omega
    have hmod : (py * G + px) % G = px := by
      rw [Nat.add_comm, Nat.add_mul_mod_self_right, Nat.mod_eq_of_lt hx]
    have hdiv : (py * G + px) / G = py := by
      rw [Nat.add_comm, Nat.add_mul_div_right px py hG, Nat.div_eq_of_lt hx]
      omega
    simp [hmod, hdiv]

lemma cell_lookup_eq_nil (G px py : ℕ) (h : G ≤ px ∨ G ≤ py) :
    cell_lookup G px py = [] := by
  apply List.filter_eq_nil_iff.mpr
  intro ind hind
  have hlt : ind < G * G := List.mem_range.mp hind
  have hG : 0 < G := by
    rcases Nat.eq_zero_or_pos G with h0 | h0
    · subst h0; omega
    · exact h0
  intro hp
  have hp2 : ind % G = px ∧ ind / G = py := by simpa using hp
  rcases h with hx | hy
  · have := Nat.mod_lt ind hG
    omega
  · have : ind / G < G := Nat.div_lt_of_lt_mul (by omega)
    omega

/-- **C4** (counterexample): the point `(2, 0)` lies exactly on the outer
boundary of the grid with edges `[0, 1, 2]`.  The spatial digitization used by
the cell×time projection maps it to no cell at all (`np.digitize` returns the
out-of-grid index 2, so the `np.where` lookup fails — a fatal error for a
spiking neuron), while the neuron-count histogram counts it into the last
cell of its row (flat index 1): the two uses of the grid do not agree on
boundary points, refuting the claim as stated. -/
theorem grid_conventions_disagree_on_boundary :
    proj_cell_index [0, 1, 2] (2, 0) = none ∧
    hist_cell_index [0, 1, 2] (2, 0) = some 1 ∧ some 1 ≠ (none : Option ℕ) := by
  refine ⟨by decide, by decide, by decide⟩

/-- **C4** (amended): for every position strictly inside the grid span — both
coordinates at least the first edge and strictly below the last edge,
interior bin edges included — the flat cell index assigned by the projection
digitization equals the flat cell whose count the position increments in the
neuron-count histogram, and that cell exists.  (On the outer boundary the two
conventions genuinely diverge, see the counterexample.) -/
theorem grid_conventions_agree_inside (space_bins : List ℚ) (p : ℚ × ℚ)
    (hx1 : space_bins.getD 0 0 ≤ p.1)
    (hx2 : p.1 < space_bins.getD (space_bins.length - 1) 0)
    (hy1 : space_bins.getD 0 0 ≤ p.2)
    (hy2 : p.2 < space_bins.getD (space_bins.length - 1) 0) :
    proj_cell_index space_bins p = hist_cell_index space_bins p ∧
    (proj_cell_index space_bins p).isSome = true := by
  rcases space_bins with _ | ⟨e0, rest⟩
  · simp at hx1 hx2
    exact absurd (lt_of_le_of_lt hx1 hx2) (lt_irrefl _)
  rcases rest with _ | ⟨e1, rest2⟩
  · simp at hx1 hx2
    exact absurd (lt_of_le_of_lt hx1 hx2) (lt_irrefl _)
  -- the edge list is e0 :: e1 :: rest2, of length ≥ 2
  -- the last edge is a member of the tail and fails the `≤ x` tests
  have hlast_mem : (e0 :: e1 :: rest2).getD ((e0 :: e1 :: rest2).length - 1) 0 ∈
      (e1 :: rest2) := by
    have hidx : (e0 :: e1 :: rest2).length - 1 = rest2.length + 1 := by simp
    rw [hidx]
    rw [List.getD_cons_succ]
    have hlt : rest2.length < (e1 :: rest2).length := by simp
    rw [List.getD_eq_getElem?_getD, List.getElem?_eq_getElem hlt, Option.getD_some]
    exact List.getElem_mem hlt
  -- digitize against the tail stays strictly below G = length − 1
  have hdig_lt : ∀ x : ℚ, x < (e0 :: e1 :: rest2).getD ((e0 :: e1 :: rest2).length - 1) 0 →
      digitize ((e0 :: e1 :: rest2).drop 1) x < (e0 :: e1 :: rest2).length - 1 := by
    intro x hx
    have hGlen : (e1 :: rest2).length = (e0 :: e1 :: rest2).length - 1 := by simp
    show digitize (e1 :: rest2) x < (e0 :: e1 :: rest2).length - 1
    unfold digitize
    rw [← hGlen]
    apply List.length_filter_lt_length_iff_exists.mpr
    refine ⟨(e0 :: e1 :: rest2).getD ((e0 :: e1 :: rest2).length - 1) 0, hlast_mem, ?_⟩
    simp only [decide_eq_true_eq, not_le]
    exact hx
  -- histogram index = searchsorted − 1 = digitize against the tail
  have hhist : ∀ x : ℚ, (e0 :: e1 :: rest2).getD 0 0 ≤ x →
      x < (e0 :: e1 :: rest2).getD ((e0 :: e1 :: rest2).length - 1) 0 →
      hist_bin_index (e0 :: e1 :: rest2) x =
        some (digitize ((e0 :: e1 :: rest2).drop 1) x) := by
    intro x hx1 hx2
    unfold hist_bin_index
    rw [if_pos ⟨hx1, le_of_lt hx2⟩, if_neg (by exact fun hc => absurd hc (ne_of_lt hx2))]
    congr 1
    have hss : searchsorted_right (e0 :: e1 :: rest2) x =
        1 + digitize ((e0 :: e1 :: rest2).drop 1) x := by
      show ((e0 :: e1 :: rest2).filter (fun e => decide (e ≤ x))).length =
        1 + ((e1 :: rest2).filter (fun e => decide (e ≤ x))).length
      have he0 : e0 ≤ x := by simpa using hx1
      rw [List.filter_cons, if_pos (by simpa using he0), List.length_cons]
      omega
    rw [hss]
    omega
  have hpx := hdig_lt p.1 hx2
  have hpy := hdig_lt p.2 hy2
  have hproj : proj_cell_index (e0 :: e1 :: rest2) p =
      some (digitize ((e0 :: e1 :: rest2).drop 1) p.2 * ((e0 :: e1 :: rest2).length - 1) +
        digitize ((e0 :: e1 :: rest2).drop 1) p.1) := by
    simp only [proj_cell_index]
    rw [cell_lookup_of_lt _ _ _ hpx hpy]
  have hhistc : hist_cell_index (e0 :: e1 :: rest2) p =
      some (digitize ((e0 :: e1 :: rest2).drop 1) p.2 * ((e0 :: e1 :: rest2).length - 1) +
        digitize ((e0 :: e1 :: rest2).drop 1) p.1) := by
    simp only [hist_cell_index]
    rw [hhist p.2 hy1 hy2, hhist p.1 hx1 hx2]
  rw [hproj, hhistc]
  exact ⟨rfl, rfl⟩

/-- Witness for **C4** (amended): a concrete interior point, on an interior
bin edge, where both conventions assign the same existing cell. -/
theorem grid_conventions_agree_inside_witness :
    proj_cell_index [0, 1, 2] (1, 0) = hist_cell_index [0, 1, 2] (1, 0) ∧
    (proj_cell_index [0, 1, 2] (1, 0)).isSome = true :=
  grid_conventions_agree_inside [0, 1, 2] (1, 0) (by norm_num) (by norm_num)
    (by norm_num) (by norm_num)

/-- The substantive invariant behind the binner's post-assertion: a
canonicalized triplet list is stored row-major, so its row indices are
non-decreasing. -/
lemma canonicalize_rows_sorted (R C : ℕ) (ts : List Entry) :
    List.Chain' (· ≤ ·) ((canonicalize R C ts).map (fun e => e.1)) := by
  have h1 : (List.range (R * C)).Pairwise (· < ·) := List.pairwise_lt_range _
  have h2 : (allCells R C).Pairwise (fun a b => a.1 ≤ b.1) := by
    unfold allCells
    rw [List.pairwise_map]
    exact h1.imp (fun hlt => Nat.div_le_div_right hlt.le)
  have h3 : ((allCells R C).filter (fun rc => present ts rc)).Pairwise
      (fun a b => a.1 ≤ b.1) :=
    h2.sublist (List.filter_sublist _)
  apply List.Pairwise.chain'
  unfold canonicalize
  rw [List.map_map, List.pairwise_map]
  exact h3

/-- **C8**: every matrix the spike-train binner returns — fine or coarse
temporal resolution (the two resolutions differ only in the `time_bins`
argument), empty or non-empty spike set — has its stored entries ordered with
non-decreasing row indices after the `tocsr().tocoo()` canonicalization; the
re-asserted row-monotonic post-condition never fails. -/
theorem binner_rows_monotone (N_X : ℕ) (spikes : List (ℕ × ℚ)) (time_bins : List ℚ)
    (M : SpMat) (h : time_binned_sptrains_X N_X spikes time_bins = Except.ok M) :
    List.Chain' (· ≤ ·) (M.entries.map (fun e => e.1)) := by
  unfold time_binned_sptrains_X at h
  cases htr : binned_triplets N_X spikes time_bins with
  | error e =>
    rw [htr] at h
    exact absurd h (by simp)
  | ok triplets =>
    rw [htr] at h
    simp only at h
    split at h
    · injection h with h2
      rw [← h2]
      exact canonicalize_rows_sorted _ _ _
    · exact absurd h (by simp)

/-- Witness for **C8**: the binner applied to the empty spike set of a
2-neuron population returns the explicitly shaped empty matrix, whose stored
rows are (vacuously) non-decreasing. -/
theorem binner_rows_monotone_witness :
    List.Chain' (· ≤ ·) ((SpMat.mk [] 2 2).entries.map (fun e => e.1)) :=
  binner_rows_monotone 2 [] [0, 1] ⟨[], 2, 2⟩
    (by simp [time_binned_sptrains_X, binned_triplets, canonicalize, present, rows_nondecreasing])

/-- **C7**: a population with zero recorded spikes gets (a) from the binner an
explicitly shaped zero-entry sparse matrix of shape
`(population size, number of time bins)` — no error —, and (b) from the
statistics loop the explicit empty dataset for every configured statistic
datatype, with no exception raised. -/
theorem empty_population_short_circuit (N_X : ℕ) (time_bins : List ℚ)
    (corrcoef : List (List ℕ) → List (List ℚ)) (dist : ℚ × ℚ → ℚ × ℚ → ℚ)
    (mem : ℕ → ℕ → ℕ) (ccs_num_neurons : Option ℕ) (min_num_neurons : ℕ)
    (ccs_time_interval sim_resolution time_statistics : ℚ)
    (sptrains_dense : List (List ℕ)) (positions : List (ℚ × ℚ))
    (datatypes : List Datatype) :
    time_binned_sptrains_X N_X [] time_bins = Except.ok ⟨[], N_X, time_bins.length⟩ ∧
    compute_statistics_X ⟨[], N_X, time_bins.length⟩ corrcoef dist mem ccs_num_neurons
      min_num_neurons ccs_time_interval sim_resolution time_statistics sptrains_dense
      positions datatypes = datatypes.map (fun _ => Except.ok Dataset.empty) := by
  constructor
  · simp [time_binned_sptrains_X, binned_triplets, canonicalize, present, rows_nondecreasing]
  · simp [compute_statistics_X]

/-! ### Spatial projection: conservation and the fatal-error condition (C1) -/

lemma flat_lt {r c R C : ℕ} (hr : r < R) (hc : c < C) : r * C + c < R * C :=
  calc r * C + c < r * C + C := by omega
    _ = (r + 1) * C := by ring
    _ ≤ R * C := Nat.mul_le_mul_right C (by omega)

lemma setSlice_length (arr : List ℕ) (j n v : ℕ) :
    (setSlice arr j n v).length = arr.length := by
  simp [setSlice, List.length_mapIdx]

lemma setSlice_mem {arr : List ℕ} {j n v x : ℕ} (hx : x ∈ setSlice arr j n v) :
    x = v ∨ x ∈ arr := by
  unfold setSlice at hx
  rw [List.mapIdx_eq_ofFn] at hx
  rcases (List.mem_ofFn _ _).mp hx with ⟨i, hi⟩
  by_cases hcond : j ≤ (i : ℕ) ∧ (i : ℕ) < j + n
  · left
    rw [← hi]
    simp [hcond]
  · right
    rw [← hi]
    simp only [if_neg hcond]
    exact List.get_mem arr i.1 i.2

lemma get?_eq_some_getD {α : Type} (l : List α) (i : ℕ) (d : α) (h : i < l.length) :
    l.get? i = some (l.getD i d) := by
  rw [List.getD_eq_getElem?_getD, List.get?_eq_getElem?, List.getElem?_eq_getElem h,
    Option.getD_some]

/-- If every spiking neuron in the remaining work list has an in-range
position that digitizes to a grid cell, the row-reassignment loop succeeds,
preserves the array length, and writes only flat cell indices (or leaves the
initial zeros). -/
lemma assign_rows_ok (G : ℕ) (pos_x pos_y : List ℕ) :
    ∀ (l : List (ℕ × ℕ)) (j : ℕ) (arr : List ℕ),
    (∀ p ∈ l, 0 < p.2 → ∃ px py, pos_x.get? p.1 = some px ∧ pos_y.get? p.1 = some py ∧
      px < G ∧ py < G) →
    (∀ x ∈ arr, x < G * G ∨ x = 0) →
    ∃ arr2, assign_rows G pos_x pos_y l j arr = Except.ok arr2 ∧
      arr2.length = arr.length ∧ (∀ x ∈ arr2, x < G * G ∨ x = 0) := by
  intro l
  induction l with
  | nil =>
    intro j arr _ harr
    exact ⟨arr, rfl, rfl, harr⟩
  | cons q rest ih =>
    intro j arr hmap harr
    obtain ⟨i, n⟩ := q
    by_cases hn : 0 < n
    · obtain ⟨px, py, hpx, hpy, hxG, hyG⟩ := hmap (i, n) (List.mem_cons_self _ _) hn
      have hstep : assign_rows G pos_x pos_y ((i, n) :: rest) j arr =
          assign_rows G pos_x pos_y rest (j + n) (setSlice arr j n (py * G + px)) := by
        simp only [assign_rows, if_pos hn, hpx, hpy, cell_lookup_of_lt G px py hxG hyG]
      rw [hstep]
      have harr2 : ∀ x ∈ setSlice arr j n (py * G + px), x < G * G ∨ x = 0 := by
        intro x hx
        rcases setSlice_mem hx with h | h
        · left
          rw [h]
          exact flat_lt hyG hxG
        · exact harr x h
      obtain ⟨arr2, heq, hlen, hinv⟩ := ih (j + n) (setSlice arr j n (py * G + px))
        (fun p hp => hmap p (List.mem_cons_of_mem _ hp)) harr2
      exact ⟨arr2, heq, by rw [hlen, setSlice_length], hinv⟩
    · have hstep : assign_rows G pos_x pos_y ((i, n) :: rest) j arr =
          assign_rows G pos_x pos_y rest (j + n) arr := by
        simp only [assign_rows, if_neg hn]
      rw [hstep]
      exact ih (j + n) arr (fun p hp => hmap p (List.mem_cons_of_mem _ hp)) harr

/-- If some spiking neuron in the work list has a position that does not
digitize to any grid cell (or no position at all), the loop raises. -/
lemma assign_rows_error (G : ℕ) (pos_x pos_y : List ℕ) :
    ∀ (l : List (ℕ × ℕ)) (j : ℕ) (arr : List ℕ) (p : ℕ × ℕ), p ∈ l → 0 < p.2 →
    (∀ px py, pos_x.get? p.1 = some px → pos_y.get? p.1 = some py → G ≤ px ∨ G ≤ py) →
    ∃ msg, assign_rows G pos_x pos_y l j arr = Except.error msg := by
  intro l
  induction l with
  | nil =>
    intro j arr p hp
    exact absurd hp (List.not_mem_nil p)
  | cons q rest ih =>
    intro j arr p hp hn hfail
    rcases List.mem_cons.mp hp with hq | hrest
    · -- the failing neuron is the head
      subst hq
      obtain ⟨i, n⟩ := p
      cases hgx : pos_x.get? i with
      | none =>
        refine ⟨"IndexError: position index out of range", ?_⟩
        simp only [assign_rows, if_pos hn, hgx]
      | some px =>
        cases hgy : pos_y.get? i with
        | none =>
          refine ⟨"IndexError: position index out of range", ?_⟩
          simp only [assign_rows, if_pos hn, hgx, hgy]
        | some py =>
          have hout := hfail px py hgx hgy
          refine ⟨"NotImplementedError: Neurons must be on spatial analysis grid.", ?_⟩
          simp only [assign_rows, if_pos hn, hgx, hgy, cell_lookup_eq_nil G px py hout]
    · -- the failing neuron is further down; process the head
      obtain ⟨i, n⟩ := q
      by_cases hni : 0 < n
      · cases hgx : pos_x.get? i with
        | none =>
          refine ⟨"IndexError: position index out of range", ?_⟩
          simp only [assign_rows, if_pos hni, hgx]
        | some px =>
          cases hgy : pos_y.get? i with
          | none =>
            refine ⟨"IndexError: position index out of range", ?_⟩
            simp only [assign_rows, if_pos hni, hgx, hgy]
          | some py =>
            cases hcl : cell_lookup G px py with
            | nil =>
              refine ⟨"NotImplementedError: Neurons must be on spatial analysis grid.", ?_⟩
              simp only [assign_rows, if_pos hni, hgx, hgy, hcl]
            | cons a t =>
              cases t with
              | nil =>
                have hstep : assign_rows G pos_x pos_y ((i, n) :: rest) j arr =
                    assign_rows G pos_x pos_y rest (j + n) (setSlice arr j n a) := by
                  simp only [assign_rows, if_pos hni, hgx, hgy, hcl]
                rw [hstep]
                exact ih (j + n) (setSlice arr j n a) p hrest hn hfail
              | cons b t2 =>
                refine ⟨"NotImplementedError: Neurons must be on spatial analysis grid.", ?_⟩
                simp only [assign_rows, if_pos hni, hgx, hgy, hcl]
      · have hstep : assign_rows G pos_x pos_y ((i, n) :: rest) j arr =
            assign_rows G pos_x pos_y rest (j + n) arr := by
          simp only [assign_rows, if_neg hni]
        rw [hstep]
        exact ih (j + n) arr p hrest hn hfail

lemma sumAt_eq_zero {ts : List Entry} {rc : ℕ × ℕ} (h : present ts rc = false) :
    sumAt ts rc = 0 := by
  unfold present at h
  unfold sumAt
  have hnil : ts.filter (fun e => decide (e.1 = rc.1 ∧ e.2.1 = rc.2)) = [] := by
    apply List.filter_eq_nil_iff.mpr
    intro e he hcontra
    have hane : ts.any (fun e => decide (e.1 = rc.1 ∧ e.2.1 = rc.2)) = true :=
      List.any_eq_true.mpr ⟨e, he, hcontra⟩
    rw [h] at hane
    exact Bool.false_ne_true hane
  rw [hnil]
  rfl

lemma sum_map_filter_eq {α : Type} (l : List α) (p : α → Bool) (f : α → ℕ)
    (h : ∀ x ∈ l, p x = false → f x = 0) :
    ((l.filter p).map f).sum = (l.map f).sum := by
  induction l with
  | nil => rfl
  | cons a t ih =>
    rw [List.filter_cons]
    by_cases hpa : p a = true
    · rw [if_pos hpa, List.map_cons, List.map_cons, List.sum_cons, List.sum_cons,
        ih (fun x hx => h x (List.mem_cons_of_mem _ hx))]
    · have hpa2 : p a = false := by
        revert hpa
        cases p a <;> simp
      rw [if_neg hpa, List.map_cons, List.sum_cons, h a (List.mem_cons_self _ _) hpa2,
        ih (fun x hx => h x (List.mem_cons_of_mem _ hx)), Nat.zero_add]

lemma sum_map_add_nat {α : Type} (l : List α) (f g : α → ℕ) :
    (l.map (fun x => f x + g x)).sum = (l.map f).sum + (l.map g).sum := by
  induction l with
  | nil => rfl
  | cons a t ih =>
    simp only [List.map_cons, List.sum_cons, ih]
    omega

lemma sum_map_ite_single {α : Type} [DecidableEq α] (l : List α) (a : α) (v : ℕ)
    (hmem : a ∈ l) (hnodup : l.Nodup) :
    (l.map (fun x => if a = x then v else 0)).sum = v := by
  induction l with
  | nil => exact absurd hmem (List.not_mem_nil a)
  | cons b t ih =>
    rw [List.nodup_cons] at hnodup
    rw [List.map_cons, List.sum_cons]
    by_cases hab : a = b
    · subst hab
      rw [if_pos rfl]
      have hz : (t.map (fun x => if a = x then v else 0)).sum = 0 := by
        apply List.sum_eq_zero
        intro y hy
        rcases List.mem_map.mp hy with ⟨x, hx, hfx⟩
        have hax : a ≠ x := by
          intro h
          apply hnodup.1
          rw [h]
          exact hx
        rw [← hfx, if_neg hax]
      rw [hz]
      omega
    · rw [if_neg hab, Nat.zero_add]
      have hat : a ∈ t := by
        rcases List.mem_cons.mp hmem with h | h
        · exact absurd h hab
        · exact h
      exact ih hat hnodup.2

lemma mem_allCells {R C r c : ℕ} (hr : r < R) (hc : c < C) : (r, c) ∈ allCells R C := by
  unfold allCells
  apply List.mem_map.mpr
  refine ⟨r * C + c, List.mem_range.mpr (flat_lt hr hc), ?_⟩
  have hmod : (r * C + c) % C = c := by
    rw [Nat.add_comm, Nat.add_mul_mod_self_right, Nat.mod_eq_of_lt hc]
  have hdiv : (r * C + c) / C = r := by
    rw [Nat.add_comm, Nat.add_mul_div_right c r (by omega), Nat.div_eq_of_lt hc]
    omega
  rw [hmod, hdiv]

lemma nodup_allCells (R C : ℕ) : (allCells R C).Nodup := by
  unfold allCells
  apply List.Nodup.map_on ?_ (List.nodup_range _)
  intro x hx y hy hxy
  have hx2 := List.mem_range.mp hx
  have hy2 := List.mem_range.mp hy
  have h1 : x / C = y / C ∧ x % C = y % C := by
    constructor
    · exact congrArg Prod.fst hxy
    · exact congrArg Prod.snd hxy
  have hdx := Nat.div_add_mod x C
  have hdy := Nat.div_add_mod y C
  rw [h1.1, h1.2] at hdx
  omega

lemma sumAt_cons (e : Entry) (ts : List Entry) (rc : ℕ × ℕ) :
    sumAt (e :: ts) rc = (if (e.1, e.2.1) = rc then e.2.2 else 0) + sumAt ts rc := by
  unfold sumAt
  rw [List.filter_cons]
  by_cases hc : e.1 = rc.1 ∧ e.2.1 = rc.2
  · rw [if_pos (by simpa using hc), if_pos (by simp [Prod.ext_iff]; omega)]
    rw [List.map_cons, List.sum_cons]
  · rw [if_neg (by simpa using hc), if_neg (by simp [Prod.ext_iff]; omega), Nat.zero_add]

lemma sum_allCells_sumAt (R C : ℕ) (ts : List Entry)
    (h : ∀ e ∈ ts, e.1 < R ∧ e.2.1 < C) :
    ((allCells R C).map (fun rc => sumAt ts rc)).sum = sumVals ts := by
  induction ts with
  | nil =>
    have hz : (allCells R C).map (fun rc => sumAt ([] : List Entry) rc) =
        (allCells R C).map (fun _ => 0) := by
      apply List.map_congr_left
      intro rc _
      rfl
    rw [hz]
    simp [sumVals]
  | cons e ts2 ih =>
    have hsplit : (allCells R C).map (fun rc => sumAt (e :: ts2) rc) =
        (allCells R C).map (fun rc => (if (e.1, e.2.1) = rc then e.2.2 else 0) + sumAt ts2 rc) := by
      apply List.map_congr_left
      intro rc _
      exact sumAt_cons e ts2 rc
    rw [hsplit, sum_map_add_nat]
    have hone : ((allCells R C).map (fun rc => if (e.1, e.2.1) = rc then e.2.2 else 0)).sum
        = e.2.2 := by
      apply sum_map_ite_single
      · exact mem_allCells (h e (List.mem_cons_self _ _)).1 (h e (List.mem_cons_self _ _)).2
      · exact nodup_allCells R C
    rw [hone, ih (fun x hx => h x (List.mem_cons_of_mem _ hx))]
    unfold sumVals
    rw [List.map_cons, List.sum_cons]

/-- Canonicalization (`tocsr()`) preserves the total stored value of an
in-range triplet list. -/
lemma sumVals_canonicalize (R C : ℕ) (ts : List Entry)
    (h : ∀ e ∈ ts, e.1 < R ∧ e.2.1 < C) :
    sumVals (canonicalize R C ts) = sumVals ts := by
  unfold canonicalize
  unfold sumVals
  rw [List.map_map]
  have hcomp : ((fun e : Entry => e.2.2) ∘ fun rc : ℕ × ℕ => (rc.1, rc.2, sumAt ts rc)) =
      fun rc => sumAt ts rc := rfl
  rw [hcomp]
  rw [sum_map_filter_eq _ _ _ (fun rc _ hpres => sumAt_eq_zero hpres)]
  exact sum_allCells_sumAt R C ts h

lemma proj_cell_index_isSome_iff (space_bins : List ℚ) (p : ℚ × ℚ) :
    (proj_cell_index space_bins p).isSome = true ↔
    (digitize (space_bins.drop 1) p.1 < space_bins.length - 1 ∧
      digitize (space_bins.drop 1) p.2 < space_bins.length - 1) := by
  simp only [proj_cell_index]
  constructor
  · intro h
    by_contra hc
    rw [not_and_or, not_lt, not_lt] at hc
    rw [cell_lookup_eq_nil _ _ _ hc] at h
    simp at h
  · intro ⟨h1, h2⟩
    rw [cell_lookup_of_lt _ _ _ h1 h2]
    rfl

lemma project_entries_ok (G ncols : ℕ) (entriesIn : List Entry) (rowNew : List ℕ)
    (hlen : entriesIn.length ≤ rowNew.length)
    (hrow : ∀ x ∈ rowNew, x < G * G)
    (hcols : ∀ e ∈ entriesIn, e.2.1 < ncols) :
    ∃ M, project_entries G ncols entriesIn rowNew = Except.ok M ∧
      sumVals M.entries = sumVals entriesIn := by
  have hrange : ∀ e ∈ (rowNew.zip entriesIn).map
      (fun re => ((re.1, re.2.2.1, re.2.2.2) : Entry)), e.1 < G * G ∧ e.2.1 < ncols := by
    intro e he
    rcases List.mem_map.mp he with ⟨re, hre, hfe⟩
    have hmem := List.of_mem_zip hre
    rw [← hfe]
    exact ⟨hrow re.1 hmem.1, hcols re.2 hmem.2⟩
  have hall : ((rowNew.zip entriesIn).map
      (fun re => ((re.1, re.2.2.1, re.2.2.2) : Entry))).all
      (fun e => decide (e.1 < G * G ∧ e.2.1 < ncols)) = true := by
    apply List.all_eq_true.mpr
    intro e he
    exact decide_eq_true (hrange e he)
  have hsumnew : sumVals ((rowNew.zip entriesIn).map
      (fun re => ((re.1, re.2.2.1, re.2.2.2) : Entry))) = sumVals entriesIn := by
    unfold sumVals
    rw [List.map_map]
    have hcomp : ((fun e : Entry => e.2.2) ∘ fun re : ℕ × Entry => (re.1, re.2.2.1, re.2.2.2)) =
        (fun e : Entry => e.2.2) ∘ Prod.snd := rfl
    rw [hcomp, ← List.map_map, List.map_snd_zip rowNew entriesIn hlen]
  have hcanon : sumVals (canonicalize (G * G) ncols ((rowNew.zip entriesIn).map
      (fun re => ((re.1, re.2.2.1, re.2.2.2) : Entry)))) = sumVals entriesIn := by
    rw [sumVals_canonicalize _ _ _ hrange, hsumnew]
  refine ⟨⟨canonicalize (G * G) ncols ((rowNew.zip entriesIn).map
      (fun re => ((re.1, re.2.2.1, re.2.2.2) : Entry))), G * G, ncols⟩, ?_, hcanon⟩
  unfold project_entries
  rw [if_pos hall, if_pos hcanon.symm]

/-- **C1** (amended): let the coarse matrix be well-formed (row-sorted as the
source asserts, one position per row, in-range coordinates, positive stored
values, as produced by the binner).  Then (a) if every neuron **with at least
one stored spike** digitizes to a grid cell, the projection returns a matrix
whose total stored value sum equals the pre-projection total exactly — the
conservation assertion never fails; and (b) if some neuron **with at least
one stored spike** cannot be mapped to a cell, the projection raises the
fatal error instead of returning a matrix.  (The claim as stated quantified
(b) over *all* neurons; a silent neuron outside the grid raises nothing, see
the counterexample.) -/
theorem spatial_projection_spec (positions : List (ℚ × ℚ)) (spm : SpMat)
    (space_bins : List ℚ)
    (hsort : rows_nondecreasing spm.entries = true)
    (hpos : spm.nrows ≤ positions.length)
    (hrows : ∀ e ∈ spm.entries, e.1 < spm.nrows)
    (hcols : ∀ e ∈ spm.entries, e.2.1 < spm.ncols)
    (hvals : ∀ e ∈ spm.entries, 0 < e.2.2) :
    ((∀ i, i < spm.nrows → 0 < rowSum spm.entries i →
        (proj_cell_index space_bins (positions.getD i (0, 0))).isSome = true) →
      ∃ M, time_and_space_binned_sptrains_X positions spm space_bins = Except.ok M ∧
        sumVals M.entries = sumVals spm.entries) ∧
    ((∃ i, i < spm.nrows ∧ 0 < rowSum spm.entries i ∧
        proj_cell_index space_bins (positions.getD i (0, 0)) = none) →
      ∃ msg, time_and_space_binned_sptrains_X positions spm space_bins =
        Except.error msg) := by
  have hna : ¬ ¬ (rows_nondecreasing spm.entries = true) := not_not_intro hsort
  constructor
  · intro hmapped
    -- every spiking work item has an in-grid digitized position
    have hmap : ∀ p ∈ (List.range spm.nrows).map (fun i => (i, rowSum spm.entries i)),
        0 < p.2 → ∃ px py,
          (positions.map (fun q => digitize (space_bins.drop 1) q.1)).get? p.1 = some px ∧
          (positions.map (fun q => digitize (space_bins.drop 1) q.2)).get? p.1 = some py ∧
          px < space_bins.length - 1 ∧ py < space_bins.length - 1 := by
      intro p hp hppos
      rcases List.mem_map.mp hp with ⟨i, hi, hpi⟩
      have hiN : i < spm.nrows := List.mem_range.mp hi
      have hiP : i < positions.length := lt_of_lt_of_le hiN hpos
      have hspk : 0 < rowSum spm.entries i := by
        rw [← hpi] at hppos
        exact hppos
      have hsome := (proj_cell_index_isSome_iff space_bins (positions.getD i (0, 0))).mp
        (hmapped i hiN hspk)
      refine ⟨digitize (space_bins.drop 1) (positions.getD i (0, 0)).1,
        digitize (space_bins.drop 1) (positions.getD i (0, 0)).2, ?_, ?_, hsome.1, hsome.2⟩
      · rw [← hpi]
        rw [List.get?_map, get?_eq_some_getD positions i (0, 0) hiP]
        rfl
      · rw [← hpi]
        rw [List.get?_map, get?_eq_some_getD positions i (0, 0) hiP]
        rfl
    have harr0 : ∀ x ∈ List.replicate spm.entries.length 0,
        x < (space_bins.length - 1) * (space_bins.length - 1) ∨ x = 0 := by
      intro x hx
      exact Or.inr (List.eq_of_mem_replicate hx)
    obtain ⟨arr2, heq, hlen2, hinv⟩ := assign_rows_ok _ _ _ _ 0 _ hmap harr0
    -- every entry of the reassigned row array is an in-range flat index
    have hrow2 : ∀ x ∈ arr2, x < (space_bins.length - 1) * (space_bins.length - 1) := by
      intro x hx
      rcases hinv x hx with h | h
      · exact h
      · -- x = 0: some stored entry exists, hence some neuron spikes, hence G ≥ 1
        subst h
        have hne : spm.entries ≠ [] := by
          intro hnil
          have hlen3 : arr2.length = 0 := by
            rw [hlen2, List.length_replicate, hnil, List.length_nil]
          have harr2 : arr2 = [] := List.eq_nil_of_length_eq_zero hlen3
          rw [harr2] at hx
          exact List.not_mem_nil 0 hx
        obtain ⟨e0, he0⟩ := List.exists_mem_of_ne_nil spm.entries hne
        have hspk0 : 0 < rowSum spm.entries e0.1 := by
          have hmemv : e0.2.2 ∈ (spm.entries.filter
              (fun e => decide (e.1 = e0.1))).map (fun e => e.2.2) :=
            List.mem_map.mpr ⟨e0, List.mem_filter.mpr ⟨he0, by simp⟩, rfl⟩
          have hle := List.le_sum_of_mem hmemv
          have hv := hvals e0 he0
          unfold rowSum
          omega
        have hsome := (proj_cell_index_isSome_iff space_bins
          (positions.getD e0.1 (0, 0))).mp (hmapped e0.1 (hrows e0 he0) hspk0)
        have hG : 0 < space_bins.length - 1 := by omega
        exact Nat.mul_pos hG hG
    have hlenok : spm.entries.length ≤ arr2.length := by
      rw [hlen2, List.length_replicate]
    obtain ⟨M, hM, hMsum⟩ := project_entries_ok (space_bins.length - 1) spm.ncols
      spm.entries arr2 hlenok hrow2 hcols
    refine ⟨M, ?_, hMsum⟩
    simp only [time_and_space_binned_sptrains_X]
    rw [if_neg hna, heq]
    exact hM
  · intro ⟨i, hiN, hspk, hnone⟩
    have hfailp : (i, rowSum spm.entries i) ∈
        (List.range spm.nrows).map (fun i => (i, rowSum spm.entries i)) :=
      List.mem_map.mpr ⟨i, List.mem_range.mpr hiN, rfl⟩
    have hiP : i < positions.length := lt_of_lt_of_le hiN hpos
    have hnot : ¬ (digitize (space_bins.drop 1) (positions.getD i (0, 0)).1 <
          space_bins.length - 1 ∧
        digitize (space_bins.drop 1) (positions.getD i (0, 0)).2 <
          space_bins.length - 1) := by
      intro hc
      have := (proj_cell_index_isSome_iff space_bins (positions.getD i (0, 0))).mpr hc
      rw [hnone] at this
      simp at this
    obtain ⟨msg, herr⟩ := assign_rows_error (space_bins.length - 1)
      (positions.map (fun q => digitize (space_bins.drop 1) q.1))
      (positions.map (fun q => digitize (space_bins.drop 1) q.2))
      _ 0 (List.replicate spm.entries.length 0) (i, rowSum spm.entries i) hfailp hspk
      (by
        intro px py hx hy
        rw [List.get?_map, get?_eq_some_getD positions i (0, 0) hiP] at hx hy
        have hpx : px = digitize (space_bins.drop 1) (positions.getD i (0, 0)).1 := by
          injection hx with h2
          exact h2.symm
        have hpy : py = digitize (space_bins.drop 1) (positions.getD i (0, 0)).2 := by
          injection hy with h2
          exact h2.symm
        rw [hpx, hpy]
        omega)
    refine ⟨msg, ?_⟩
    simp only [time_and_space_binned_sptrains_X]
    rw [if_neg hna, herr]

/-- Witness for **C1** (amended): a 2-neuron matrix over the `[0,1,2]` grid,
both neurons spiking and mapped; the projection succeeds and conserves the
total of 3 stored spikes. -/
theorem spatial_projection_spec_witness :
    ∃ M, time_and_space_binned_sptrains_X [((0 : ℚ), 0), (1, 0)]
        ⟨[(0, 0, 1), (1, 1, 2)], 2, 3⟩ [0, 1, 2] = Except.ok M ∧
      sumVals M.entries = sumVals [(0, 0, 1), (1, 1, 2)] :=
  (spatial_projection_spec [((0 : ℚ), 0), (1, 0)] ⟨[(0, 0, 1), (1, 1, 2)], 2, 3⟩ [0, 1, 2]
    (by decide) (by decide) (by decide) (by decide) (by decide)).1
    (by
      intro i hi _
      interval_cases i <;> decide)

/-- **C1** (counterexample): a population whose single neuron sits outside
the configured grid but has no stored spikes.  The projection silently
returns a matrix (`ok`) instead of raising the fatal data-consistency error
the claim demands for "any neuron's position that cannot be mapped to a
cell": the lookup is only performed for neurons with spikes. -/
theorem spatial_projection_silent_neuron_no_error :
    time_and_space_binned_sptrains_X [((5 : ℚ), 5)] ⟨[], 1, 3⟩ [0, 1] =
      Except.ok ⟨[], 1, 3⟩ ∧
    proj_cell_index [0, 1] ((5 : ℚ), 5) = none := by
  refine ⟨by decide, by decide⟩

/-! ### Distance-resolved correlation: selection, determinism, and the two
variants (C2, C9, C10) -/

/-- Spec-side description of the streaming writes: overwrite `spt` with the
given rows at consecutive indices starting at `i`. -/
def writeRows (spt : List (List ℕ)) (i : ℕ) (rows : List (List ℕ)) : List (List ℕ) :=
  match rows with
  | [] => spt
  | r :: rs => writeRows (spt.set i r) (i + 1) rs

/-- Spec-side description of the mask updates: set the given node ids to
`true`. -/
def applyMarks (mask : List Bool) (ids : List ℕ) : List Bool :=
  ids.foldl (fun m nid => m.set nid true) mask

/-- The node ids a boolean mask selects, in increasing order. -/
def trueIndices (mask : List Bool) : List ℕ :=
  (List.range mask.length).filter (fun j => mask.getD j false)

lemma reshape_bin_one (ntbin : ℕ) (flat : List ℕ) (h : ntbin ≠ 0) (hd : ntbin ∣ flat.length) :
    reshape_bin 1 ntbin flat = Except.ok [chunkSums ntbin flat] := by
  unfold reshape_bin
  rw [if_pos ⟨one_ne_zero, h, by simpa using hd⟩]
  simp [List.range_succ]

lemma chunkSums_nil (n : ℕ) : chunkSums n [] = [] := by
  unfold chunkSums
  exact chunkSumsF_nil _ _

lemma dvd_length_drop {n : ℕ} {a : List ℕ} (hdvd : n ∣ a.length) : n ∣ (a.drop n).length := by
  rcases hdvd with ⟨k, hk⟩
  refine ⟨k - 1, ?_⟩
  rw [List.length_drop, hk]
  cases k with
  | zero => omega
  | succ k2 =>
    have hms : n * (k2 + 1) = n * k2 + n := by ring
    simp only [Nat.add_sub_cancel]
    omega

lemma chunkSums_append_fuel (n : ℕ) (hn : n ≠ 0) :
    ∀ (m : ℕ) (a b : List ℕ), a.length ≤ m → n ∣ a.length →
    chunkSums n (a ++ b) = chunkSums n a ++ chunkSums n b := by
  intro m
  induction m with
  | zero =>
    intro a b hm _
    have ha : a = [] := List.eq_nil_of_length_eq_zero (by omega)
    subst ha
    rw [List.nil_append, chunkSums_nil, List.nil_append]
  | succ m ih =>
    intro a b hm hdvd
    by_cases ha : a = []
    · subst ha
      rw [List.nil_append, chunkSums_nil, List.nil_append]
    · have hpos : 0 < a.length := List.length_pos.mpr ha
      have hnle : n ≤ a.length := Nat.le_of_dvd hpos hdvd
      have hnpos : 0 < n := Nat.pos_of_ne_zero hn
      have hab : a ++ b ≠ [] := by
        intro hc
        exact ha (List.append_eq_nil.mp hc).1
      rw [chunkSums_eq n hn (a ++ b) hab]
      conv_rhs => rw [chunkSums_eq n hn a ha]
      rw [List.take_append_eq_append_take, List.drop_append_eq_append_drop,
        show n - a.length = 0 from by omega, List.take_zero, List.drop_zero,
        List.append_nil, List.cons_append]
      congr 1
      exact ih (a.drop n) b (by rw [List.length_drop]; omega) (dvd_length_drop hdvd)

lemma chunkSums_append (n : ℕ) (hn : n ≠ 0) (a b : List ℕ) (hdvd : n ∣ a.length) :
    chunkSums n (a ++ b) = chunkSums n a ++ chunkSums n b :=
  chunkSums_append_fuel n hn a.length a b le_rfl hdvd

lemma chunkSums_length_fuel (n : ℕ) (hn : n ≠ 0) :
    ∀ (m : ℕ) (l : List ℕ), l.length ≤ m → n ∣ l.length →
    (chunkSums n l).length = l.length / n := by
  intro m
  induction m with
  | zero =>
    intro l hm _
    have hl : l = [] := List.eq_nil_of_length_eq_zero (by omega)
    subst hl
    rw [chunkSums_nil]
    simp
  | succ m ih =>
    intro l hm hdvd
    by_cases hl : l = []
    · subst hl
      rw [chunkSums_nil]
      simp
    · have hpos : 0 < l.length := List.length_pos.mpr hl
      have hnle : n ≤ l.length := Nat.le_of_dvd hpos hdvd
      have hnpos : 0 < n := Nat.pos_of_ne_zero hn
      rw [chunkSums_eq n hn l hl, List.length_cons,
        ih (l.drop n) (by rw [List.length_drop]; omega) (dvd_length_drop hdvd),
        List.length_drop]
      rcases hdvd with ⟨k, hk⟩
      rw [hk]
      cases k with
      | zero => omega
      | succ k2 =>
        rw [show n * (k2 + 1) = n * k2 + n from by ring,
          show n * k2 + n - n = n * k2 from by omega,
          Nat.mul_div_cancel_left _ hnpos,
          show n * k2 + n = n * (k2 + 1) from by ring,
          Nat.mul_div_cancel_left _ hnpos]

lemma chunkSums_length_dvd (n : ℕ) (hn : n ≠ 0) (l : List ℕ) (hdvd : n ∣ l.length) :
    (chunkSums n l).length = l.length / n :=
  chunkSums_length_fuel n hn l.length l le_rfl hdvd

lemma chunkSums_flatten (n : ℕ) (hn : n ≠ 0) (rows : List (List ℕ)) (m : ℕ)
    (hrows : ∀ r ∈ rows, r.length = m) (hd : n ∣ m) :
    chunkSums n rows.flatten = (rows.map (chunkSums n)).flatten := by
  induction rows with
  | nil =>
    rw [List.flatten_nil, List.map_nil, List.flatten_nil, chunkSums_nil]
  | cons r rs ih =>
    rw [List.flatten_cons, List.map_cons, List.flatten_cons]
    rw [chunkSums_append n hn r rs.flatten (by rw [hrows r (List.mem_cons_self _ _)]; exact hd)]
    rw [ih (fun x hx => hrows x (List.mem_cons_of_mem _ hx))]

lemma applyMarks_cons (mask : List Bool) (a : ℕ) (ids : List ℕ) :
    applyMarks mask (a :: ids) = applyMarks (mask.set a true) ids := rfl

lemma writeRows_cons (spt : List (List ℕ)) (i : ℕ) (r : List ℕ) (rs : List (List ℕ)) :
    writeRows spt i (r :: rs) = writeRows (spt.set i r) (i + 1) rs := rfl

/-- Full characterization of the per-neuron streaming loop of
`_compute_ccs_distances` when enough spiking neurons remain: it succeeds,
having written the binned trains of exactly the first `num_neurons − i`
spiking node ids (scanned in increasing order) into `spt` from index `i` on,
and marked exactly those ids in the mask. -/
lemma stream_loop_spec (num_neurons ntbin : ℕ) (sptrains : List (List ℕ))
    (hnt : ntbin ≠ 0) :
    ∀ (nids : List ℕ) (i : ℕ) (spt : List (List ℕ)) (mask : List Bool),
    (∀ nid ∈ nids, spiking sptrains nid = true →
      ntbin ∣ ((sptrains.getD nid []).dropLast).length) →
    spt.length = num_neurons →
    i < num_neurons →
    num_neurons - i ≤ ((nids.filter (spiking sptrains)).length) →
    stream_loop num_neurons ntbin sptrains nids i spt mask =
      Except.ok (num_neurons,
        writeRows spt i (((nids.filter (spiking sptrains)).take (num_neurons - i)).map
          (fun nid => chunkSums ntbin ((sptrains.getD nid []).dropLast))),
        applyMarks mask ((nids.filter (spiking sptrains)).take (num_neurons - i))) := by
  intro nids
  induction nids with
  | nil =>
    intro i spt mask _ _ hi hcount
    simp only [List.filter_nil, List.length_nil] at hcount
    omega
  | cons nid rest ih =>
    intro i spt mask hdvd hlen hi hcount
    by_cases hspk : spiking sptrains nid = true
    · -- the head spikes: it is binned, written at index i and marked
      have hsum : 0 < ((sptrains.getD nid []).dropLast).sum := by
        have hs2 := hspk
        unfold spiking at hs2
        exact of_decide_eq_true hs2
      have hbin := reshape_bin_one ntbin ((sptrains.getD nid []).dropLast) hnt
        (hdvd nid (List.mem_cons_self _ _) hspk)
      have hfil : (nid :: rest).filter (spiking sptrains) =
          nid :: rest.filter (spiking sptrains) := by
        rw [List.filter_cons, if_pos hspk]
      have hwr : i < spt.length := by omega
      by_cases hlast : i + 1 = num_neurons
      · -- this was the last neuron to select: the loop breaks
        have htake : num_neurons - i = 1 := by omega
        have hstep : stream_loop num_neurons ntbin sptrains (nid :: rest) i spt mask =
            Except.ok (i + 1,
              spt.set i (chunkSums ntbin ((sptrains.getD nid []).dropLast)),
              mask.set nid true) := by
          simp only [stream_loop, if_pos hsum, hbin, if_pos hwr, if_pos hlast]
          rw [List.flatten_cons, List.flatten_nil, List.append_nil]
        rw [hstep, hfil, htake, hlast]
        rw [List.take_succ_cons, List.take_zero, List.map_cons, List.map_nil]
        rw [writeRows_cons, applyMarks_cons]
        rfl
      · -- more neurons needed: recurse
        have hi2 : i + 1 < num_neurons := by omega
        have htake : num_neurons - i = (num_neurons - (i + 1)) + 1 := by omega
        have hcount2 : num_neurons - (i + 1) ≤ (rest.filter (spiking sptrains)).length := by
          rw [hfil] at hcount
          rw [List.length_cons] at hcount
          omega
        have hstep : stream_loop num_neurons ntbin sptrains (nid :: rest) i spt mask =
            stream_loop num_neurons ntbin sptrains rest (i + 1)
              (spt.set i (chunkSums ntbin ((sptrains.getD nid []).dropLast)))
              (mask.set nid true) := by
          simp only [stream_loop, if_pos hsum, hbin, if_pos hwr, if_neg hlast]
          rw [List.flatten_cons, List.flatten_nil, List.append_nil]
        rw [hstep, ih (i + 1) _ _ (fun x hx hs => hdvd x (List.mem_cons_of_mem _ hx) hs)
          (by rw [List.length_set]; exact hlen) hi2 hcount2]
        rw [hfil, htake, List.take_succ_cons, List.map_cons, writeRows_cons, applyMarks_cons]
    · -- the head does not spike: it is skipped
      have hspkf : spiking sptrains nid = false := by
        revert hspk
        cases spiking sptrains nid <;> simp
      have hsum : ¬ 0 < ((sptrains.getD nid []).dropLast).sum := by
        intro hc
        exact hspk (by unfold spiking; exact decide_eq_true hc)
      have hfil : (nid :: rest).filter (spiking sptrains) =
          rest.filter (spiking sptrains) := by
        rw [List.filter_cons, hspkf]
        rfl
      have hne : i ≠ num_neurons := by omega
      have hstep : stream_loop num_neurons ntbin sptrains (nid :: rest) i spt mask =
          stream_loop num_neurons ntbin sptrains rest i spt mask := by
        simp only [stream_loop, if_neg hsum, if_neg hne]
      rw [hstep, ih i spt mask (fun x hx hs => hdvd x (List.mem_cons_of_mem _ hx) hs)
        hlen hi (by rw [hfil] at hcount; exact hcount), hfil]

lemma applyMarks_length (ids : List ℕ) :
    ∀ (mask : List Bool), (applyMarks mask ids).length = mask.length := by
  induction ids with
  | nil => intro mask; rfl
  | cons a rest ih =>
    intro mask
    rw [applyMarks_cons, ih, List.length_set]

lemma getD_replicate_false (n j : ℕ) : (List.replicate n false).getD j false = false := by
  rw [List.getD_eq_getElem?_getD]
  cases hj : (List.replicate n false)[j]? with
  | none => rfl
  | some b =>
    have := List.getElem?_mem hj
    rw [List.eq_of_mem_replicate this]
    rfl

lemma getD_set_bool (mask : List Bool) (a j : ℕ) (ha : a < mask.length) :
    (mask.set a true).getD j false = if j = a then true else mask.getD j false := by
  by_cases hja : j = a
  · subst hja
    rw [if_pos rfl, List.getD_eq_getElem?_getD, List.getElem?_set_eq_of_lt _ ha]
    rfl
  · rw [if_neg hja, List.getD_eq_getElem?_getD, List.getD_eq_getElem?_getD,
      List.getElem?_set_ne (fun hc => hja hc.symm)]

lemma applyMarks_getD (ids : List ℕ) :
    ∀ (mask : List Bool) (j : ℕ), (∀ x ∈ ids, x < mask.length) →
    (applyMarks mask ids).getD j false = (mask.getD j false || decide (j ∈ ids)) := by
  induction ids with
  | nil =>
    intro mask j _
    simp [applyMarks]
  | cons a rest ih =>
    intro mask j hids
    rw [applyMarks_cons, ih (mask.set a true) j
      (fun x hx => by rw [List.length_set]; exact hids x (List.mem_cons_of_mem _ hx))]
    rw [getD_set_bool mask a j (hids a (List.mem_cons_self _ _))]
    by_cases hja : j = a
    · subst hja
      simp
    · simp [hja]

lemma filter_mem_of_sublist {l r : List ℕ} (h : l.Sublist r) (hr : r.Nodup) :
    r.filter (fun x => decide (x ∈ l)) = l := by
  induction h with
  | slnil => rfl
  | cons a h ih =>
    rename_i l1 l2
    rw [List.nodup_cons] at hr
    rw [List.filter_cons]
    have ha : a ∉ l1 := fun hc => hr.1 (h.subset hc)
    rw [if_neg (by simpa using ha)]
    exact ih hr.2
  | cons₂ a h ih =>
    rename_i l1 l2
    rw [List.nodup_cons] at hr
    rw [List.filter_cons, if_pos (by simp)]
    have hsame : l2.filter (fun x => decide (x ∈ a :: l1)) =
        l2.filter (fun x => decide (x ∈ l1)) := by
      apply List.filter_congr
      intro x hx
      have hxa : x ≠ a := fun hc => hr.1 (hc ▸ hx)
      simp [List.mem_cons, hxa]
    rw [hsame, ih hr.2]

lemma trueIndices_applyMarks (n : ℕ) (ids : List ℕ) (hsub : ids.Sublist (List.range n)) :
    trueIndices (applyMarks (List.replicate n false) ids) = ids := by
  have hids : ∀ x ∈ ids, x < n := fun x hx => List.mem_range.mp (hsub.subset hx)
  unfold trueIndices
  rw [applyMarks_length, List.length_replicate]
  have hgd : ∀ j ∈ List.range n,
      (applyMarks (List.replicate n false) ids).getD j false = decide (j ∈ ids) := by
    intro j _
    rw [applyMarks_getD ids (List.replicate n false) j
      (fun x hx => by rw [List.length_replicate]; exact hids x hx)]
    rw [getD_replicate_false]
    rw [Bool.false_or]
  rw [List.filter_congr hgd]
  exact filter_mem_of_sublist hsub (List.nodup_range n)

/-- **C9**: when at least `K = num_neurons` neurons spiked, the streaming
selection loop of `_compute_ccs_distances` succeeds, and the neurons it uses
are exactly the spiking neurons with the smallest node ids: node ids are
scanned in increasing order and the loop breaks after `K` spiking neurons,
so the selected ids — and, the model being a pure function of its inputs,
the whole result — are determined by the input alone. -/
theorem ccs_stream_selects_first_spiking (num_neurons ntbin : ℕ)
    (sptrains : List (List ℕ)) (spt0 : List (List ℕ))
    (hnt : ntbin ≠ 0)
    (hdvd : ∀ nid ∈ List.range sptrains.length, spiking sptrains nid = true →
      ntbin ∣ ((sptrains.getD nid []).dropLast).length)
    (hlen : spt0.length = num_neurons)
    (hK : 0 < num_neurons)
    (hcount : num_neurons ≤
      (((List.range sptrains.length).filter (spiking sptrains))).length) :
    stream_loop num_neurons ntbin sptrains (List.range sptrains.length) 0 spt0
        (List.replicate sptrains.length false) =
      Except.ok (num_neurons,
        writeRows spt0 0
          ((((List.range sptrains.length).filter (spiking sptrains)).take num_neurons).map
            (fun nid => chunkSums ntbin ((sptrains.getD nid []).dropLast))),
        applyMarks (List.replicate sptrains.length false)
          (((List.range sptrains.length).filter (spiking sptrains)).take num_neurons)) ∧
    trueIndices (applyMarks (List.replicate sptrains.length false)
        (((List.range sptrains.length).filter (spiking sptrains)).take num_neurons)) =
      ((List.range sptrains.length).filter (spiking sptrains)).take num_neurons := by
  constructor
  · have h := stream_loop_spec num_neurons ntbin sptrains hnt
      (List.range sptrains.length) 0 spt0 (List.replicate sptrains.length false)
      hdvd hlen hK (by simpa using hcount)
    simpa using h
  · apply trueIndices_applyMarks
    exact (List.take_sublist _ _).trans (List.filter_sublist _)

/-- Witness for **C9**: four neurons of which ids 0 and 2 spike (id 3 fires
only in the discarded last bin); selecting 2 neurons picks exactly ids 0 and
2, writes their binned trains over the uninitialized buffer, and the loop
returns deterministically. -/
theorem ccs_stream_selects_first_spiking_witness :
    stream_loop 2 2 [[1, 0, 0], [0, 0, 0], [0, 2, 0], [3, 0, 1]] (List.range 4) 0
        [[9], [9]] (List.replicate 4 false) =
      Except.ok (2, [[1], [2]], [true, false, true, false]) ∧
    trueIndices [true, false, true, false] = [0, 2] := by
  have h := ccs_stream_selects_first_spiking 2 2 [[1, 0, 0], [0, 0, 0], [0, 2, 0], [3, 0, 1]]
    [[9], [9]] (by decide) (by decide) (by decide) (by decide) (by decide)
  exact ⟨h.1.trans (by decide), by decide⟩

lemma writeRows_cons_head (rows : List (List ℕ)) :
    ∀ (s : List ℕ) (ss : List (List ℕ)) (i : ℕ),
    writeRows (s :: ss) (i + 1) rows = s :: writeRows ss i rows := by
  induction rows with
  | nil => intro s ss i; rfl
  | cons r rs ih =>
    intro s ss i
    rw [writeRows_cons]
    rw [show (s :: ss).set (i + 1) r = s :: ss.set i r from rfl]
    rw [ih s (ss.set i r) (i + 1), ← writeRows_cons]

lemma writeRows_full (rows : List (List ℕ)) :
    ∀ (spt : List (List ℕ)), rows.length = spt.length →
    writeRows spt 0 rows = rows := by
  induction rows with
  | nil =>
    intro spt hlen
    have : spt = [] := List.eq_nil_of_length_eq_zero (by simpa using hlen.symm)
    rw [this]
    rfl
  | cons r rs ih =>
    intro spt hlen
    cases spt with
    | nil => simp at hlen
    | cons s ss =>
      rw [writeRows_cons]
      rw [show (s :: ss).set 0 r = r :: ss from rfl]
      rw [writeRows_cons_head rs r ss 0, ih ss (by simpa using hlen)]

lemma zip_map_filter {α : Type} (l : List α) (p : α → Bool) :
    ((l.zip (l.map p)).filter (fun rm => rm.2)).map (fun rm => rm.1) = l.filter p := by
  induction l with
  | nil => rfl
  | cons a t ih =>
    rw [List.map_cons, List.zip_cons_cons, List.filter_cons, List.filter_cons]
    by_cases hpa : p a = true
    · rw [if_pos hpa, if_pos hpa, List.map_cons, ih]
    · rw [if_neg hpa, if_neg hpa]
      exact ih

lemma filter_eq_map_range {α : Type} (d : α) (p : α → Bool) :
    ∀ (l : List α),
    l.filter p = ((List.range l.length).filter (fun i => p (l.getD i d))).map
      (fun i => l.getD i d) := by
  intro l
  induction l with
  | nil => rfl
  | cons a t ih =>
    rw [List.length_cons, List.range_succ_eq_map, List.filter_cons, List.filter_cons]
    have hq0 : (a :: t).getD 0 d = a := rfl
    have hmapf : ((List.range t.length).map Nat.succ).filter
        (fun i => p ((a :: t).getD i d)) =
        ((List.range t.length).filter (fun i => p (t.getD i d))).map Nat.succ := by
      rw [List.filter_map]
      congr 1
    have hcomp : (((List.range t.length).filter (fun i => p (t.getD i d))).map
        Nat.succ).map (fun i => (a :: t).getD i d) =
        ((List.range t.length).filter (fun i => p (t.getD i d))).map
          (fun i => t.getD i d) := by
      rw [List.map_map]
      congr 1
    rw [hq0]
    by_cases hpa : p a = true
    · rw [if_pos hpa, if_pos hpa, List.map_cons, hq0, hmapf, hcomp, ih]
    · rw [if_neg hpa, if_neg hpa, hmapf, hcomp, ih]

lemma getD_map_dropLast (sptrains : List (List ℕ)) (i : ℕ) :
    (sptrains.map List.dropLast).getD i [] = (sptrains.getD i []).dropLast := by
  rw [List.getD_eq_getElem?_getD, List.getD_eq_getElem?_getD, List.getElem?_map]
  cases sptrains[i]? <;> rfl

lemma getD_mem_of_lt {α : Type} (l : List α) (i : ℕ) (d : α) (h : i < l.length) :
    l.getD i d ∈ l := by
  rw [List.getD_eq_getElem?_getD, List.getElem?_eq_getElem h, Option.getD_some]
  exact List.getElem_mem h

lemma split_flatten (w : ℕ) :
    ∀ (rows : List (List ℕ)), (∀ r ∈ rows, r.length = w) →
    (List.range rows.length).map (fun i => ((rows.flatten.drop (i * w)).take w)) = rows := by
  intro rows
  induction rows with
  | nil => intro _; rfl
  | cons r rs ih =>
    intro hrows
    rw [List.length_cons, List.range_succ_eq_map, List.map_cons]
    congr 1
    · simp only [Nat.zero_mul, List.drop_zero, List.flatten_cons]
      rw [← hrows r (List.mem_cons_self _ _), List.take_left]
    · rw [List.map_map]
      have hstep : ∀ i : ℕ, (List.flatten (r :: rs)).drop (Nat.succ i * w) =
          rs.flatten.drop (i * w) := by
        intro i
        rw [List.flatten_cons, Nat.succ_mul, Nat.add_comm,
          ← hrows r (List.mem_cons_self _ _)]
        rw [← List.drop_drop, List.drop_left]
      have hfun : ((fun i => ((List.flatten (r :: rs)).drop (i * w)).take w) ∘ Nat.succ) =
          fun i => ((rs.flatten.drop (i * w)).take w) := by
        funext i
        simp only [Function.comp]
        rw [hstep i]
      rw [hfun, ih (fun x hx => hrows x (List.mem_cons_of_mem _ hx))]

lemma map_length_eq_replicate {m : ℕ} (rows : List (List ℕ))
    (hrows : ∀ r ∈ rows, r.length = m) :
    rows.map List.length = List.replicate rows.length m := by
  apply List.eq_replicate.mpr
  refine ⟨by rw [List.length_map], ?_⟩
  intro b hb
  rcases List.mem_map.mp hb with ⟨r, hr, hrb⟩
  rw [← hrb]
  exact hrows r hr

lemma reshape_bin_flatten (n ntbin m : ℕ) (rows : List (List ℕ))
    (hn : n ≠ 0) (hnt : ntbin ≠ 0) (hrows : ∀ r ∈ rows, r.length = m)
    (hcount : rows.length = n) (hdvd : ntbin ∣ m) :
    reshape_bin n ntbin rows.flatten = Except.ok (rows.map (chunkSums ntbin)) := by
  have hflat : rows.flatten.length = n * m := by
    rw [List.length_flatten, map_length_eq_replicate rows hrows, List.sum_replicate,
      smul_eq_mul, hcount]
  have hsum := chunkSums_flatten ntbin hnt rows m hrows hdvd
  have hlens : ∀ r2 ∈ rows.map (chunkSums ntbin), r2.length = m / ntbin := by
    intro r2 hr2
    rcases List.mem_map.mp hr2 with ⟨r, hr, hrb⟩
    rw [← hrb, chunkSums_length_dvd ntbin hnt r (by rw [hrows r hr]; exact hdvd),
      hrows r hr]
  have hslen : (chunkSums ntbin rows.flatten).length = n * (m / ntbin) := by
    rw [hsum, List.length_flatten, map_length_eq_replicate _ hlens, List.sum_replicate,
      smul_eq_mul, List.length_map, hcount]
  simp only [reshape_bin]
  rw [if_pos ⟨hn, hnt, by rw [hflat]; exact mul_dvd_mul_left n hdvd⟩]
  have hw : (chunkSums ntbin rows.flatten).length / n = m / ntbin := by
    rw [hslen, Nat.mul_div_cancel_left _ (Nat.pos_of_ne_zero hn)]
  rw [hw, hsum]
  congr 1
  rw [show n = (rows.map (chunkSums ntbin)).length from by rw [List.length_map, hcount]]
  exact split_flatten (m / ntbin) (rows.map (chunkSums ntbin)) hlens

lemma spiking_def (sptrains : List (List ℕ)) (nid : ℕ) :
    decide (0 < ((sptrains.getD nid []).dropLast).sum) = spiking sptrains nid := rfl

/-- **C10**: whenever at least the selected number of neurons spiked and the
temporal re-binning factor divides the number of analysis time steps (the
uniform row width minus the discarded last bin), the current row-streaming
variant of the distance-resolved correlation and the legacy dense-matrix
variant produce identical retained correlation-coefficient sequences — for
any correlation kernel `corrcoef` and any distance metrics. -/
theorem ccs_stream_dense_equiv
    (corrcoef : List (List ℕ) → List (List ℚ)) (dist1 dist2 : ℚ × ℚ → ℚ × ℚ → ℚ)
    (mem : ℕ → ℕ → ℕ) (ccs_num_neurons : Option ℕ) (min_num_neurons : ℕ)
    (ccs_time_interval binsize_time : ℚ)
    (sptrains : List (List ℕ)) (positions : List (ℚ × ℚ)) (W : ℕ)
    (hW : ∀ r ∈ sptrains, r.length = W)
    (hnt : (ccs_time_interval / binsize_time).floor.toNat ≠ 0)
    (hdvd : (ccs_time_interval / binsize_time).floor.toNat ∣ (W - 1))
    (hK : 0 < select_num_neurons ccs_num_neurons min_num_neurons)
    (hcount : select_num_neurons ccs_num_neurons min_num_neurons ≤
      ((List.range sptrains.length).filter (spiking sptrains)).length) :
    (compute_ccs_distances_stream corrcoef dist1 mem ccs_num_neurons min_num_neurons
        ccs_time_interval binsize_time sptrains positions).map CCResult.ccs =
    (compute_ccs_distances_dense corrcoef dist2 ccs_num_neurons min_num_neurons
        ccs_time_interval binsize_time sptrains positions).map CCResult.ccs := by
  have hdvd2 : ∀ nid ∈ List.range sptrains.length, spiking sptrains nid = true →
      (ccs_time_interval / binsize_time).floor.toNat ∣
        ((sptrains.getD nid []).dropLast).length := by
    intro nid hnid _
    have hlt := List.mem_range.mp hnid
    have hmem := getD_mem_of_lt sptrains nid [] hlt
    rw [List.length_dropLast, hW _ hmem]
    exact hdvd
  have hidslen : ((((List.range sptrains.length).filter (spiking sptrains)).take
      (select_num_neurons ccs_num_neurons min_num_neurons))).length =
      select_num_neurons ccs_num_neurons min_num_neurons := by
    rw [List.length_take, Nat.min_eq_left hcount]
  have hrowlen : ∀ r ∈ (((List.range sptrains.length).filter (spiking sptrains)).take
      (select_num_neurons ccs_num_neurons min_num_neurons)).map
        (fun nid => (sptrains.getD nid []).dropLast), r.length = W - 1 := by
    intro r hr
    rcases List.mem_map.mp hr with ⟨nid, hnid, hrb⟩
    have hnid2 : nid ∈ List.range sptrains.length :=
      (List.filter_sublist _).subset ((List.take_sublist _ _).subset hnid)
    have hlt := List.mem_range.mp hnid2
    have hmem := getD_mem_of_lt sptrains nid [] hlt
    rw [← hrb, List.length_dropLast, hW _ hmem]
  -- the stream side evaluates to the binned trains of the first K spiking ids
  have hstream : (compute_ccs_distances_stream corrcoef dist1 mem ccs_num_neurons
      min_num_neurons ccs_time_interval binsize_time sptrains positions).map CCResult.ccs =
      Except.ok (upper_triangle (corrcoef
        ((((List.range sptrains.length).filter (spiking sptrains)).take
          (select_num_neurons ccs_num_neurons min_num_neurons)).map
            (fun nid => chunkSums ((ccs_time_interval / binsize_time).floor.toNat)
              ((sptrains.getD nid []).dropLast))))) := by
    simp only [compute_ccs_distances_stream]
    rw [stream_loop_spec (select_num_neurons ccs_num_neurons min_num_neurons)
      ((ccs_time_interval / binsize_time).floor.toNat) sptrains hnt
      (List.range sptrains.length) 0
      ((List.range (select_num_neurons ccs_num_neurons min_num_neurons)).map
        (fun i => (List.range (((sptrains.headD []).length - 1) /
          (ccs_time_interval / binsize_time).floor.toNat)).map (mem i)))
      (List.replicate sptrains.length false) hdvd2 (by simp) hK (by simpa using hcount)]
    simp only [Nat.sub_zero]
    rw [writeRows_full _ _ (by simp [hidslen, hcount])]
    rfl
  -- the dense side evaluates to the same binned matrix
  have hdense : (compute_ccs_distances_dense corrcoef dist2 ccs_num_neurons
      min_num_neurons ccs_time_interval binsize_time sptrains positions).map CCResult.ccs =
      Except.ok (upper_triangle (corrcoef
        ((((List.range sptrains.length).filter (spiking sptrains)).take
          (select_num_neurons ccs_num_neurons min_num_neurons)).map
            (fun nid => chunkSums ((ccs_time_interval / binsize_time).floor.toNat)
              ((sptrains.getD nid []).dropLast))))) := by
    simp only [compute_ccs_distances_dense]
    rw [zip_map_filter (sptrains.map List.dropLast) (fun r => decide (0 < r.sum))]
    rw [filter_eq_map_range [] (fun r => decide (0 < r.sum)) (sptrains.map List.dropLast)]
    simp only [getD_map_dropLast, List.length_map]
    simp only [spiking_def]
    rw [← List.map_take]
    rw [reshape_bin_flatten _ _ (W - 1) _
      (by rw [List.length_map, hidslen]; omega) hnt hrowlen rfl hdvd]
    rw [List.map_map]
    rfl
  rw [hstream, hdense]

theorem ccs_stream_dense_equiv_witness :
    (∀ r ∈ [[1,0,0],[0,0,0],[0,2,0],[3,0,1]], List.length r = 3) ∧
    ((2:ℚ)/1).floor.toNat ≠ 0 ∧
    ((2:ℚ)/1).floor.toNat ∣ (3 - 1) ∧
    0 < select_num_neurons (some 2) 5 ∧
    select_num_neurons (some 2) 5 ≤
      ((List.range ([[1,0,0],[0,0,0],[0,2,0],[3,0,1]] : List (List ℕ)).length).filter
        (spiking [[1,0,0],[0,0,0],[0,2,0],[3,0,1]])).length ∧
    (compute_ccs_distances_stream
        (fun M => M.map (fun r => M.map (fun s => ((r.sum : ℚ) - (s.sum : ℚ)))))
        (fun _ _ => (0:ℚ)) (fun _ _ => (0:ℕ)) (some 2) 5 2 1
        [[1,0,0],[0,0,0],[0,2,0],[3,0,1]]
        [((0:ℚ),(0:ℚ)), (1,0), (0,1), (1,1)]).map CCResult.ccs =
    (compute_ccs_distances_dense
        (fun M => M.map (fun r => M.map (fun s => ((r.sum : ℚ) - (s.sum : ℚ)))))
        (fun _ _ => (0:ℚ)) (some 2) 5 2 1
        [[1,0,0],[0,0,0],[0,2,0],[3,0,1]]
        [((0:ℚ),(0:ℚ)), (1,0), (0,1), (1,1)]).map CCResult.ccs := by
  have hq : ((2:ℚ)/1) = (2:ℚ) := by norm_num
  have hfl : ((2:ℚ)/1).floor.toNat = 2 := by rw [hq]; decide
  refine ⟨by decide, by simp [hfl]; decide, by simp [hfl]; decide, by decide, by decide, ?_⟩
  exact ccs_stream_dense_equiv
    (fun M => M.map (fun r => M.map (fun s => ((r.sum : ℚ) - (s.sum : ℚ)))))
    (fun _ _ => (0:ℚ)) (fun _ _ => (0:ℚ)) (fun _ _ => (0:ℕ)) (some 2) 5 2 1
    [[1,0,0],[0,0,0],[0,2,0],[3,0,1]]
    [((0:ℚ),(0:ℚ)), (1,0), (0,1), (1,1)] 3
    (by decide) (by simp [hfl]; decide) (by simp [hfl]; decide) (by decide) (by decide)

/-- **C2**: the claim fails on the current streaming variant.  With selection
size `K = 3` but only `k = 2` neurons actually spiking (neurons 0 and 3 of
four), the retained correlation-coefficient sequence has `C(3,2) = 3` entries
— `np.corrcoef` runs over all `K` preallocated rows, including the
uninitialized `np.empty` row — while the paired distance sequence has
`C(2,2) = 1` entries, built from the positions of the spiking neurons only.
The claim requires both counts to equal `C(k,2) = C(2,2)`; they differ, and
the two sequences are not even of equal length. -/
theorem ccs_shortfall_mismatch :
    ((compute_ccs_distances_stream
        (fun M => M.map (fun _ => M.map (fun _ => (0:ℚ))))
        (fun _ _ => (0:ℚ)) (fun _ _ => (0:ℕ)) (some 3) 5 2 1
        [[1,0,0],[0,0,0],[0,0,0],[2,0,1]]
        [((0:ℚ),(0:ℚ)), (1,0), (0,1), (1,1)]).map
      (fun r => (r.ccs.length, r.distances.length)) =
      Except.ok (Nat.choose 3 2, Nat.choose 2 2)) ∧
    Nat.choose 3 2 ≠ Nat.choose 2 2 := by
  refine ⟨?_, by decide⟩
  simp only [compute_ccs_distances_stream]
  rw [show ((2:ℚ)/1) = (2:ℚ) from by norm_num]
  decide

end Mesocircuit
